import Mathlib

/-!
Shallow embedding of the dgl graph-sampling core:
`src/include/dgl/sample_utils.h` (AliasSampler, CDFSampler, TreeSampler) and
`src/src/graph/sampler.cc` (ArrayHeap, RandomSample, NegateArray,
GetUniformSample, GetNonUniformSample, SampleSubgraph, ConstructNodeFlow,
NeighborUniformSample, RandomWalk).

Modelling conventions:
- the C++ floating type `DType` is modelled as `ℚ`, vertex/edge ids as `ℕ`;
- the external `RandomEngine` / `rand_r` is modelled by passing the values
  it produces (the "dice") explicitly, as arguments or as a consumed list;
- `while` loops without a structural bound take explicit fuel (always ample
  for the code's reachable states) and fail with `none` when it runs out;
- out-of-bounds vector accesses (UB in C++) and exhausted modelled
  randomness yield `stuck`; `LOG(FATAL)` / failed `CHECK` yields `fatal`
  (in the `Option`-valued pipeline both are `none`).
-/

namespace Dgl

/-- contiguous segment `[a, b)` of a list; models a base pointer plus length
slice of a C++ vector. -/
def seg (l : List α) (a b : ℕ) : List α := (l.drop a).take (b - a)

/-- failure kinds of the sampler embedding. -/
inductive SErr where
  | fatal
  | stuck
deriving DecidableEq

/-- checked vector read `l[i]`; an out-of-range read is UB in C++ and is
modelled as `stuck`. -/
def exIdx (l : List α) (i : ℕ) : Except SErr α :=
  match l[i]? with
  | some a => Except.ok a
  | none => Except.error SErr.stuck

/-- effectful map over a list in the `Option` monad (a structural `mapM`):
`none` as soon as `f` fails on an element. -/
def optMapM (f : α → Option β) : List α → Option (List β)
  | [] => some []
  | a :: t =>
    match f a with
    | none => none
    | some b =>
      match optMapM f t with
      | none => none
      | some bs => some (b :: bs)

/-! ## TreeSampler (sample_utils.h, lines 244-297), replace = false -/

/-- sizing loop of the TreeSampler constructor:
`num_leafs = 1; while (num_leafs < prob.size()) num_leafs *= 2;`.
Structural fuel; fuel `n` is ample since `n ≤ 2 ^ n`. -/
def pow2Loop : ℕ → ℕ → ℕ → ℕ
  | 0, _, cur => cur
  | fuel + 1, n, cur => if cur < n then pow2Loop fuel n (2 * cur) else cur

/-- `num_leafs` for a population of size `n`. -/
def treeNumLeafs (n : ℕ) : ℕ := pow2Loop n n 1

/-- state of a TreeSampler: the complete binary tree of subtree weights,
root at index 1, leaves at `[numLeafs, 2*numLeafs)`. -/
structure TreeState where
  numLeafs : ℕ
  weight : ℕ → ℚ

/-- bottom-up subtree-sum build loop
`for (i = num_leafs - 1; i >= 1; --i) weight[i] = weight[i*2] + weight[i*2+1];`
processing the highest index first. -/
def sumBuild (w : ℕ → ℚ) : ℕ → (ℕ → ℚ)
  | 0 => w
  | i + 1 => sumBuild (Function.update w (i + 1) (w (2 * (i + 1)) + w (2 * (i + 1) + 1))) i

/-- `TreeSampler::ResetState(prob)`: zero the array, write the leaves, then
rebuild the internal sums. -/
def treeResetState (nl : ℕ) (prob : List ℚ) : TreeState :=
  { numLeafs := nl
    weight := sumBuild
      (fun j => if nl ≤ j ∧ j < nl + prob.length then prob.getD (j - nl) 0 else 0)
      (nl - 1) }

/-- the TreeSampler constructor. -/
def treeInit (prob : List ℚ) : TreeState := treeResetState (treeNumLeafs prob.length) prob

/-- descent loop of `TreeSampler::Draw`:
`while (cur < num_leafs) { shift = (p > accum + w_l && w_r > 0); ... }`.
Fuel bounds the depth (callers pass `numLeafs + 1`, ample). -/
def treeDescend (w : ℕ → ℚ) (nl : ℕ) : ℕ → ℕ → ℚ → ℚ → Option ℕ
  | 0, cur, _, _ => if cur < nl then none else some cur
  | fuel + 1, cur, p, accum =>
    if cur < nl then
      let wl := w (2 * cur)
      let wr := w (2 * cur + 1)
      let pivot := accum + wl
      if p > pivot ∧ wr > 0 then treeDescend w nl fuel (2 * cur + 1) p pivot
      else treeDescend w nl fuel (2 * cur) p accum
    else some cur

/-- upward update loop of `Draw` for replace=false: zero the drawn leaf and
recompute each ancestor as the sum of its children
(`while (cur >= 1) { ...; cur /= 2; }`). Fuel `cur + 1` is ample. -/
def treeZeroUp (nl : ℕ) : ℕ → (ℕ → ℚ) → ℕ → (ℕ → ℚ)
  | 0, w, _ => w
  | fuel + 1, w, cur =>
    if 1 ≤ cur then
      let w2 := if nl ≤ cur then Function.update w cur 0
                else Function.update w cur (w (2 * cur) + w (2 * cur + 1))
      treeZeroUp nl fuel w2 (cur / 2)
    else w

/-- `TreeSampler::Draw`, replace = false; `dice` is the value the external
`RandomEngine::Uniform(0, weight[1])` returned (any value in `[0, weight[1])`). -/
def treeDraw (s : TreeState) (dice : ℚ) : Option (ℕ × TreeState) :=
  match treeDescend s.weight s.numLeafs (s.numLeafs + 1) 1 dice 0 with
  | none => none
  | some cur =>
      some (cur - s.numLeafs, { s with weight := treeZeroUp s.numLeafs (cur + 1) s.weight cur })

/-! ## AliasSampler (sample_utils.h, lines 41-150), replace = false -/

/-- state of an AliasSampler (replace=false): `K` alias table, `U` probability
table, `_prob` the saved category distribution, `used` the availability
bitmap, `id_mapping` the compact-to-original index map. -/
structure AliasState where
  N : ℕ
  accum : ℚ
  taken : ℚ
  K : List ℕ
  U : List ℚ
  _prob : List ℚ
  used : List Bool
  id_mapping : List ℕ
deriving DecidableEq

/-- queue-pairing loop of `AliasSampler::Reconstruct`:
`while (!under.empty() && !over.empty()) { ... }`; each iteration pops the
front of both queues and pushes at most one element, so fuel
`under.length + over.length` is ample. -/
def aliasPair (avg : ℚ) : ℕ → List ℕ → List ℚ → List (ℕ × ℚ) → List (ℕ × ℚ) →
    Option (List ℕ × List ℚ)
  | _, K, U, [], _ => some (K, U)
  | _, K, U, _, [] => some (K, U)
  | 0, _, _, _ :: _, _ :: _ => none
  | fuel + 1, K, U, (i_u, p_u) :: underTl, (i_o, p_o) :: overTl =>
    let K2 := K.set i_u i_o
    let U2 := U.set i_u p_u
    let under2 := if p_o + p_u < 2 * avg then underTl ++ [(i_o, p_o + p_u - avg)] else underTl
    let over2 := if p_o + p_u > 2 * avg then overTl ++ [(i_o, p_o + p_u - avg)] else overTl
    aliasPair avg fuel K2 U2 under2 over2

/-- `AliasSampler::Reconstruct(prob)`: collect the unused indices, rebuild the
`(U, K)` tables; `LOG(FATAL)` when no unused index remains. Reads `used`,
keeps `used` and `_prob` unchanged, resets `taken` to 0. -/
def aliasReconstruct (s : AliasState) (prob : List ℚ) : Except SErr AliasState :=
  let idm := (List.range prob.length).filter (fun i => s.used.getD i false = false)
  let N := idm.length
  let accum := (idm.map (fun i => prob.getD i 0)).sum
  if N = 0 then Except.error SErr.fatal
  else
    let avg := accum / (N : ℚ)
    let lbl := (List.range N).map (fun i => (i, prob.getD (idm.getD i 0) 0))
    let over0 := lbl.filter (fun x => x.2 > avg)
    let under0 := lbl.filter (fun x => ¬ x.2 > avg)
    match aliasPair avg (N + N) (List.range N) (List.replicate N avg) under0 over0 with
    | none => Except.error SErr.stuck
    | some (K, U) =>
        Except.ok { N := N, accum := accum, taken := 0, K := K, U := U,
                    _prob := s._prob, used := s.used, id_mapping := idm }

/-- `AliasSampler::ResetState(prob)` on a fresh sampler (the constructor):
`used` is sized to `prob` and cleared, `_prob := prob`, then `Reconstruct`. -/
def aliasInit (prob : List ℚ) : Except SErr AliasState :=
  aliasReconstruct
    { N := 0, accum := 0, taken := 0, K := [], U := [],
      _prob := prob, used := List.replicate prob.length false, id_mapping := [] }
    prob

/-- retry loop of `AliasSampler::Draw` (replace=false): each iteration consumes
one dice value `d = Uniform(0, N)`; `avg` was computed at `Draw` entry (from
the pre-`Reconstruct` state, as in the source). Returns the drawn original
index, the updated state and the unconsumed dice. -/
def aliasDrawLoop (s : AliasState) (avg : ℚ) :
    List ℚ → Except SErr (ℕ × AliasState × List ℚ)
  | [] => Except.error SErr.stuck
  | d :: rest => do
    let i : ℕ := d.floor.toNat
    let p := (d - (i : ℚ)) * avg
    let mi ← exIdx s.id_mapping i
    let u ← exIdx s.U mi
    let rst ← if p ≤ u then pure mi
              else do
                let ki ← exIdx s.K i
                exIdx s.id_mapping ki
    let cap ← exIdx s._prob rst
    let ur ← exIdx s.used rst
    if ur then aliasDrawLoop s avg rest
    else Except.ok (rst, { s with used := s.used.set rst true, taken := s.taken + cap }, rest)

/-- `AliasSampler::Draw` (replace=false): compute `avg = accum / N`, rebuild
from `_prob` once half the mass is consumed (`2*taken >= accum`), then run the
retry loop on the supplied dice. -/
def aliasDraw (s : AliasState) (dice : List ℚ) : Except SErr (ℕ × AliasState × List ℚ) := do
  let avg := s.accum / (s.N : ℚ)
  let s2 ← if 2 * s.taken ≥ s.accum then aliasReconstruct s s._prob else pure s
  aliasDrawLoop s2 avg dice

/-- `n` consecutive `Draw()` calls on an AliasSampler, threading the dice. -/
def aliasDrawN : ℕ → AliasState → List ℚ → Except SErr (List ℕ × AliasState × List ℚ)
  | 0, s, dice => Except.ok ([], s, dice)
  | n + 1, s, dice => do
    let (i, s2, rest) ← aliasDraw s dice
    let (is, s3, rest2) ← aliasDrawN n s2 rest
    Except.ok (i :: is, s3, rest2)

/-! ## CDFSampler (sample_utils.h, lines 160-234), replace = false -/

/-- state of a CDFSampler (replace=false). -/
structure CdfState where
  N : ℕ
  accum : ℚ
  taken : ℚ
  _prob : List ℚ
  cdf : List ℚ
  used : List Bool
  id_mapping : List ℕ
deriving DecidableEq

/-- `CDFSampler::Reconstruct(prob)`: prefix-sum the unused weights into `cdf`
(starting from the pushed 0); `LOG(FATAL)` when no unused index remains. -/
def cdfReconstruct (s : CdfState) (prob : List ℚ) : Except SErr CdfState :=
  let idm := (List.range prob.length).filter (fun i => s.used.getD i false = false)
  let N := idm.length
  let accum := (idm.map (fun i => prob.getD i 0)).sum
  if N = 0 then Except.error SErr.fatal
  else
    Except.ok { N := N, accum := accum, taken := 0, _prob := s._prob,
                cdf := (idm.map (fun i => prob.getD i 0)).scanl (· + ·) 0,
                used := s.used, id_mapping := idm }

/-- `CDFSampler::ResetState(prob)` on a fresh sampler (the constructor). -/
def cdfInit (prob : List ℚ) : Except SErr CdfState :=
  cdfReconstruct
    { N := 0, accum := 0, taken := 0, _prob := prob, cdf := [],
      used := List.replicate prob.length false, id_mapping := [] }
    prob

/-- `std::numeric_limits<DType>::min()` for `DType = float`: the smallest
positive normal value, `2^-126`. -/
def cdfEps : ℚ := 1 / 2 ^ 126

/-- `std::lower_bound(cdf.begin(), cdf.end(), p) - cdf.begin()` on the sorted
prefix-sum array: index of the first element `≥ p` (length if none). -/
def lowerBoundIdx (l : List ℚ) (p : ℚ) : ℕ := l.findIdx (fun x => p ≤ x)

/-- retry loop of `CDFSampler::Draw` (replace=false): each iteration consumes
one dice value `d = Uniform(0, accum)` and binary-searches
`max(d, eps)` in `cdf`; the C++ `- 1` on the iterator is modelled by failing
(`stuck`, an out-of-range index in C++) when the found index is 0. -/
def cdfDrawLoop (s : CdfState) : List ℚ → Except SErr (ℕ × CdfState × List ℚ)
  | [] => Except.error SErr.stuck
  | d :: rest => do
    let p := max d cdfEps
    let li := lowerBoundIdx s.cdf p
    if li = 0 then Except.error SErr.stuck
    else do
      let rst ← exIdx s.id_mapping (li - 1)
      let cap ← exIdx s._prob rst
      let ur ← exIdx s.used rst
      if ur then cdfDrawLoop s rest
      else Except.ok (rst, { s with used := s.used.set rst true, taken := s.taken + cap }, rest)

/-- `CDFSampler::Draw` (replace=false). -/
def cdfDraw (s : CdfState) (dice : List ℚ) : Except SErr (ℕ × CdfState × List ℚ) := do
  let s2 ← if 2 * s.taken ≥ s.accum then cdfReconstruct s s._prob else pure s
  cdfDrawLoop s2 dice

/-- `n` consecutive `Draw()` calls on a CDFSampler, threading the dice. -/
def cdfDrawN : ℕ → CdfState → List ℚ → Except SErr (List ℕ × CdfState × List ℚ)
  | 0, s, dice => Except.ok ([], s, dice)
  | n + 1, s, dice => do
    let (i, s2, rest) ← cdfDraw s dice
    let (is, s3, rest2) ← cdfDrawN n s2 rest
    Except.ok (i :: is, s3, rest2)

/-! ## ArrayHeap (sampler.cc, lines 28-104) -/

/-- loop computing `ceil(log2(n))` by doubling:
the number of doublings taking 1 up to at least `n`. Structural fuel `n`
is ample. -/
def clog2Loop : ℕ → ℕ → ℕ → ℕ
  | 0, _, _ => 0
  | fuel + 1, n, cur => if cur < n then clog2Loop fuel n (2 * cur) + 1 else 0

/-- `bit_len_ = ceil(log2(vec_size_))` of the ArrayHeap constructor. -/
def clog2 (n : ℕ) : ℕ := clog2Loop n n 1

/-- state of an ArrayHeap: `heap` holds subtree sums, root at 1, leaves at
`[limit, 2*limit)`. -/
structure HeapState where
  vecSize : ℕ
  bitLen : ℕ
  limit : ℕ
  heap : ℕ → ℚ

/-- the ArrayHeap constructor: place `prob` at the leaves and fill each
internal node with the sum of its children, bottom-up (the source's two-level
loop computes every parent after its children, identically to the descending
single loop `sumBuild`). -/
def heapInit (prob : List ℚ) : HeapState :=
  let n := prob.length
  let bl := clog2 n
  let lim := 2 ^ bl
  { vecSize := n, bitLen := bl, limit := lim,
    heap := sumBuild
      (fun j => if lim ≤ j ∧ j < lim + n then prob.getD (j - lim) 0 else 0)
      (lim - 1) }

/-- loop of `ArrayHeap::Delete`: subtract `v` at `i` and at each ancestor,
`bit_len_ + 1` times. -/
def heapDeleteLoop : ℕ → (ℕ → ℚ) → ℕ → ℚ → (ℕ → ℚ)
  | 0, w, _, _ => w
  | it + 1, w, i, v => heapDeleteLoop it (Function.update w i (w i - v)) (i / 2) v

/-- `ArrayHeap::Delete(index)`: remove leaf `index`'s weight from the leaf and
all its ancestors. -/
def heapDelete (s : HeapState) (index : ℕ) : HeapState :=
  { s with heap := heapDeleteLoop (s.bitLen + 1) s.heap (index + s.limit) (s.heap (index + s.limit)) }

/-- descent loop of `ArrayHeap::Sample`:
`while (i < limit_) { i <<= 1; if (xi >= heap_[i]) { xi -= heap_[i]; i += 1; } }`.
Fuel bounds the depth (`limit + 1` is ample). -/
def heapDescend (w : ℕ → ℚ) (lim : ℕ) : ℕ → ℕ → ℚ → Option ℕ
  | 0, i, _ => if i < lim then none else some i
  | fuel + 1, i, xi =>
    if i < lim then
      let wl := w (2 * i)
      if xi ≥ wl then heapDescend w lim fuel (2 * i + 1) (xi - wl)
      else heapDescend w lim fuel (2 * i) xi
    else some i

/-- `ArrayHeap::Sample(seed)`: `xi = heap_[1] * (rand_r(seed) % 100 / 101.0)`,
then descend; `r` is the value `rand_r` returned. -/
def heapSample (s : HeapState) (r : ℕ) : Option ℕ :=
  (heapDescend s.heap s.limit (s.limit + 1) 1 (s.heap 1 * ((r % 100 : ℕ) : ℚ) / 101)).map
    (fun i => i - s.limit)

/-- `ArrayHeap::SampleWithoutReplacement(n)`: repeatedly `Sample` then
`Delete`, consuming one `rand_r` value per draw. -/
def heapSWOR (s : HeapState) : ℕ → List ℕ → Option (List ℕ × HeapState × List ℕ)
  | 0, rands => some ([], s, rands)
  | n + 1, rands =>
    match rands with
    | [] => none
    | r :: rest =>
      match heapSample s r with
      | none => none
      | some idx =>
        match heapSWOR (heapDelete s idx) n rest with
        | none => none
        | some (is, s2, rest2) => some (idx :: is, s2, rest2)

/-! ## RandomSample / NegateArray / GetUniformSample / GetNonUniformSample
(sampler.cc, lines 106-216) -/

/-- loop of `RandomSample`: `while (sampled_idxs.size() < num)
sampled_idxs.insert(rand_r(seed) % set_size);`. The `unordered_set` is
modelled as a duplicate-free list in insertion order (every caller sorts the
result before use, so the set's unspecified iteration order is irrelevant).
Runs out of modelled randomness = `none`. -/
def randomSampleGo (setSize num : ℕ) : List ℕ → List ℕ → Option (List ℕ × List ℕ)
  | [], acc => if num ≤ acc.length then some (acc, []) else none
  | r :: rest, acc =>
    if num ≤ acc.length then some (acc, r :: rest)
    else randomSampleGo setSize num rest
      (if acc.contains (r % setSize) then acc else acc ++ [r % setSize])

/-- `RandomSample(set_size, num, out, seed)`: uniformly sample `num` distinct
integers from `[0, set_size)`. -/
def randomSample (setSize num : ℕ) (rands : List ℕ) : Option (List ℕ × List ℕ) :=
  randomSampleGo setSize num rands []

/-- loops of `NegateArray`: walk `i` over `[0, arr_size)`, skipping the sorted
non-zero positions `it` points into, emitting all other indices. -/
def negGo : ℕ → List ℕ → ℕ → List ℕ
  | 0, _, _ => []
  | left + 1, [], i => i :: negGo left [] (i + 1)
  | left + 1, j :: rest, i =>
    if j = i then negGo left rest (i + 1) else i :: negGo left (j :: rest) (i + 1)

/-- `NegateArray(nz_idxs, arr_size, out)`: `nz_idxs.back()` on an empty vector
is UB (modelled `none`); `CHECK_GT(arr_size, nz_idxs.back())`. -/
def negateArray (nz : List ℕ) (arrSize : ℕ) : Option (List ℕ) :=
  match nz.getLast? with
  | none => none
  | some b => if b < arrSize then some (negGo arrSize nz 0) else none

/-- the `CHECK_GT(sorted_idxs[i], sorted_idxs[i - 1])` verification loop of
`GetUniformSample`, as a boolean. -/
def pairwiseLtB : List ℕ → Bool
  | [] => true
  | [_] => true
  | a :: b :: t => a < b && pairwiseLtB (b :: t)

/-- `GetUniformSample(edge_id_list, vid_list, ver_len, max_num_neighbor, ...)`:
verbatim copy when `ver_len ≤ max_num_neighbor`; otherwise sample
`max_num_neighbor` positions directly when `ver_len > 2*max_num_neighbor`,
else sample the `ver_len - max_num_neighbor` positions to exclude and negate.
Returns `(out_ver, out_edge, remaining rands)`. -/
def getUniformSample (edgeIdList vidList : List ℕ) (verLen maxNum : ℕ)
    (rands : List ℕ) : Option (List ℕ × List ℕ × List ℕ) :=
  if verLen ≤ maxNum then some (vidList, edgeIdList, rands)
  else do
    let (sortedIdxs, rest) ←
      if verLen > maxNum * 2 then do
        let (s, rest) ← randomSample verLen maxNum rands
        pure (s.insertionSort (· ≤ ·), rest)
      else do
        let (neg, rest) ← randomSample verLen (verLen - maxNum) rands
        let si ← negateArray (neg.insertionSort (· ≤ ·)) verLen
        pure (si, rest)
    if sortedIdxs.length = maxNum ∧ pairwiseLtB sortedIdxs = true then do
      let outVer ← optMapM (fun idx => vidList[idx]?) sortedIdxs
      let outEdge ← optMapM (fun idx => edgeIdList[idx]?) sortedIdxs
      pure (outVer, outEdge, rest)
    else none

/-- `GetNonUniformSample(probability, edge_id_list, vid_list, ...)`: verbatim
copy when `ver_len ≤ max_num_neighbor`; otherwise draw `max_num_neighbor`
slice positions without replacement from an ArrayHeap over the neighbors'
probabilities, then sort the resulting vertex ids and edge ids independently. -/
def getNonUniformSample (probability : ℕ → ℚ) (edgeIdList vidList : List ℕ)
    (verLen maxNum : ℕ) (rands : List ℕ) : Option (List ℕ × List ℕ × List ℕ) :=
  if verLen ≤ maxNum then some (vidList, edgeIdList, rands)
  else do
    let spProb := vidList.map probability
    let (spIndex, _, rest) ← heapSWOR (heapInit spProb) maxNum rands
    let outVer ← optMapM (fun idx => vidList[idx]?) spIndex
    let outEdge ← optMapM (fun idx => edgeIdList[idx]?) spIndex
    pure (outVer.insertionSort (· ≤ ·), outEdge.insertionSort (· ≤ ·), rest)

/-! ## SampleSubgraph frontier expansion (sampler.cc, lines 374-471) -/

/-- read-only CSR view of the input graph (`indptr`, `indices`, `edge_ids`),
as selected by `edge_type` from `GetInCSR`/`GetOutCSR`. -/
structure Csr where
  indptr : List ℕ
  indices : List ℕ
  edgeIds : List ℕ

/-- mutable state of the expansion loop; `curMap` models the per-layer
`unordered_set sub_ver_map` as a duplicate-free list. -/
structure ExpandSt where
  subVers : List (ℕ × ℕ)
  curMap : List ℕ
  neighPos : List (ℕ × ℕ × ℕ)
  neighborList : List ℕ
  edgeList : List ℕ
  numEdges : ℕ
  rands : List ℕ

/-- seed insertion loop (lines 392-398): deduplicated push of `(seed, 0)`. -/
def addSeeds : List ℕ → List ℕ → List (ℕ × ℕ) → (List ℕ × List (ℕ × ℕ))
  | [], m, sv => (m, sv)
  | v :: t, m, sv =>
    if m.contains v then addSeeds t m sv
    else addSeeds t (m ++ [v]) (sv ++ [(v, 0)])

/-- sampled-neighbor insertion loop (lines 454-463): push each neighbor not
yet in the per-layer set, tagged with level `lvl`. -/
def pushNews (lvl : ℕ) : List ℕ → List ℕ → List (ℕ × ℕ) → (List ℕ × List (ℕ × ℕ))
  | [], m, sv => (m, sv)
  | v :: t, m, sv =>
    if m.contains v then pushNews lvl t m sv
    else pushNews lvl t (m ++ [v]) (sv ++ [(v, lvl)])

/-- body of the inner expansion loop (lines 418-464) for one queue index:
sample the vertex's neighbor slice, record its `neighbor_info`, append the
sampled ids to the shared buffers and enqueue the unseen neighbors. -/
def processVertex (csr : Csr) (prob : Option (ℕ → ℚ)) (maxNum : ℕ) (st : ExpandSt)
    (idx : ℕ) : Option ExpandSt := do
  let (dstId, lvl) ← st.subVers[idx]?
  let a ← csr.indptr[dstId]?
  let b ← csr.indptr[dstId + 1]?
  if a ≤ b ∧ b ≤ csr.indices.length ∧ b ≤ csr.edgeIds.length then do
    let (vs, es, rands2) ←
      match prob with
      | none => getUniformSample (seg csr.edgeIds a b) (seg csr.indices a b) (b - a) maxNum st.rands
      | some pr => getNonUniformSample pr (seg csr.edgeIds a b) (seg csr.indices a b) (b - a) maxNum st.rands
    let (m2, sv2) := pushNews (lvl + 1) vs st.curMap st.subVers
    pure { subVers := sv2, curMap := m2,
           neighPos := st.neighPos ++ [(dstId, st.neighborList.length, vs.length)],
           neighborList := st.neighborList ++ vs,
           edgeList := st.edgeList ++ es,
           numEdges := st.numEdges + vs.length,
           rands := rands2 }
  else none

/-- inner expansion loop over queue indices `[idx, idx + cnt)`. -/
def processRange (csr : Csr) (prob : Option (ℕ → ℚ)) (maxNum : ℕ) :
    ℕ → ExpandSt → ℕ → Option ExpandSt
  | 0, st, _ => some st
  | cnt + 1, st, idx => do
    let st2 ← processVertex csr prob maxNum st idx
    processRange csr prob maxNum cnt st2 (idx + 1)

/-- outer expansion loop (lines 411-467), one iteration per remaining layer:
clear the per-layer set, process the previous layer's queue window `[a, b)`,
then extend `layer_offsets` (with the source's
`CHECK_EQ(layer_offsets[layer_id+1], sub_vers.size())`). -/
def expandLoop (csr : Csr) (prob : Option (ℕ → ℚ)) (maxNum : ℕ) :
    ℕ → ExpandSt → List ℕ → ℕ → ℕ → Option (ExpandSt × List ℕ)
  | 0, st, lo, _, _ => some (st, lo)
  | rem + 1, st, lo, a, b => do
    let st2 ← processRange csr prob maxNum (b - a) { st with curMap := [] } a
    let c := b + st2.curMap.length
    if c = st2.subVers.length then expandLoop csr prob maxNum rem st2 (lo ++ [c]) b c
    else none

/-- result of the expansion phase, handed to `ConstructNodeFlow`. -/
structure ExpandOut where
  subVers : List (ℕ × ℕ)
  lo : List ℕ
  neighPos : List (ℕ × ℕ × ℕ)
  neighborList : List ℕ
  edgeList : List ℕ
  numEdges : ℕ
  rands : List ℕ

/-- the expansion phase of `SampleSubgraph` (everything before the
`ConstructNodeFlow` call): seed layer, then `num_hops - 1` expansion sweeps.
`numHops = 0` would write `layer_offsets[1]` out of bounds. -/
def expandFrontier (csr : Csr) (prob : Option (ℕ → ℚ)) (seeds : List ℕ)
    (numHops maxNum : ℕ) (rands : List ℕ) : Option ExpandOut :=
  if numHops = 0 then none
  else
    let (m0, sv0) := addSeeds seeds [] []
    let st0 : ExpandSt :=
      { subVers := sv0, curMap := m0, neighPos := [], neighborList := [],
        edgeList := [], numEdges := 0, rands := rands }
    match expandLoop csr prob maxNum (numHops - 1) st0 [0, sv0.length] 0 sv0.length with
    | none => none
    | some (st, lo) =>
        some { subVers := st.subVers, lo := lo, neighPos := st.neighPos,
               neighborList := st.neighborList, edgeList := st.edgeList,
               numEdges := st.numEdges, rands := st.rands }

/-! ## ConstructNodeFlow (sampler.cc, lines 241-372) -/

/-- the vertices of internal layer `l` (the slice of the sorted `sub_vers`
between consecutive `layer_offsets`), sorted by original id as in
`std::sort(..., a1.first < a2.first)` (keys are distinct per layer in every
reachable input, so the unstable `std::sort` result is this unique one). -/
def sortedLayer (subVers : List (ℕ × ℕ)) (lo : List ℕ) (l : ℕ) : List (ℕ × ℕ) :=
  (seg subVers (lo.getD l 0) (lo.getD (l + 1) 0)).insertionSort (fun a b => a.1 ≤ b.1)

/-- the `neighbor_info` records of internal layer `l`, sorted by vertex id
(`a1.id < a2.id`). -/
def sortedNeighPos (neighPos : List (ℕ × ℕ × ℕ)) (lo : List ℕ) (l : ℕ) : List (ℕ × ℕ × ℕ) :=
  (seg neighPos (lo.getD l 0) (lo.getD (l + 1) 0)).insertionSort (fun a b => a.1 ≤ b.1)

/-- first output position of internal layer `l` (the value of the global
`ver_id` counter when the reversed-order traversal reaches layer `l`):
the total size of the deeper layers. -/
def layerStartOut (subVers : List (ℕ × ℕ)) (lo : List ℕ) (numHops l : ℕ) : ℕ :=
  (((List.range numHops).drop (l + 1)).map
    (fun l2 => (sortedLayer subVers lo l2).length)).sum

/-- `layer_ver_maps[l]`: original vertex id of layer `l` ↦ assigned local id
(the value of the monotonically increasing `ver_id` counter). -/
def layerVerMap (subVers : List (ℕ × ℕ)) (lo : List ℕ) (numHops l : ℕ) : List (ℕ × ℕ) :=
  (((sortedLayer subVers lo l).map Prod.fst).enumFrom (layerStartOut subVers lo numHops l)).map
    Prod.swap

/-- the per-layer blocks of `node_mapping`, in traversal order
(`layer_id = num_hops - 1` down to `0`, each layer sorted by original id). -/
def nodeBlocks (subVers : List (ℕ × ℕ)) (lo : List ℕ) (numHops : ℕ) : List (List ℕ) :=
  ((List.range numHops).reverse).map (fun l => (sortedLayer subVers lo l).map Prod.fst)

/-- `node_mapping` as written by the first loop of `ConstructNodeFlow`. -/
def nodeMappingOf (subVers : List (ℕ × ℕ)) (lo : List ℕ) (numHops : ℕ) : List ℕ :=
  (nodeBlocks subVers lo numHops).flatten

/-- row construction for internal layer `l` (lines 312-344): pair the sorted
layer vertices with the sorted `neighbor_info` records
(`CHECK_EQ(dst_id, neigh_pos->at(i).id)`), and for each record resolve its
sampled neighbors in the adjacent layer's local-id map
(`CHECK(layer_ver_maps[layer_id+1].find(neigh) != end)`; a failed lookup is
fatal, never skipped) and copy its edge-id slice. -/
def rowsOfLayer (neighborList edgeList : List ℕ) (subVers : List (ℕ × ℕ)) (lo : List ℕ)
    (neighPos : List (ℕ × ℕ × ℕ)) (numHops l : ℕ) : Option (List (List ℕ × List ℕ)) :=
  let sv := sortedLayer subVers lo l
  let np := sortedNeighPos neighPos lo l
  if sv.length = np.length then
    optMapM (fun x =>
      if x.1.1 = x.2.1 ∧ x.2.2.1 ≤ neighborList.length ∧
         (neighborList = [] → x.2.2.2 = 0) ∧
         x.2.2.1 + x.2.2.2 ≤ neighborList.length ∧
         x.2.2.1 + x.2.2.2 ≤ edgeList.length then do
        let cols ← optMapM
            (fun neigh => (layerVerMap subVers lo numHops (l + 1)).lookup neigh)
            (seg neighborList x.2.2.1 (x.2.2.1 + x.2.2.2))
        some (cols, seg edgeList x.2.2.1 (x.2.2.1 + x.2.2.2))
      else none) (sv.zip np)
  else none

/-- Modelled from the spec: `ImmutableGraph::CSR::GetDegree(a, b)` (the class
lives outside src/) — the number of edges of the rows `[a, b)` of the freshly
built compact CSR, i.e. the difference of its offsets; per the spec,
`flow_offsets` are "boundary indices into edge_mapping delimiting each
inter-layer edge block". -/
def csrGetDegree (indptr : List ℕ) (a b : ℕ) : ℕ := indptr.getD b 0 - indptr.getD a 0

/-- the output of one sampling call. -/
structure NodeFlow where
  nodeMapping : List ℕ
  edgeMapping : List ℕ
  layerOffsets : List ℕ
  flowOffsets : List ℕ
  csrIndptr : List ℕ
  csrCols : List ℕ
deriving DecidableEq

/-- `ConstructNodeFlow`: re-materialize the expansion buffers into the
layered, locally reindexed `NodeFlow`. Every `CHECK` of the source is a
guard; a failed guard (`LOG(FATAL)`) is `none`. -/
def constructNodeFlow (neighborList edgeList : List ℕ) (lo : List ℕ)
    (subVers : List (ℕ × ℕ)) (neighPos : List (ℕ × ℕ × ℕ)) (numEdges numHops : ℕ) :
    Option NodeFlow := do
  guard (1 ≤ numHops ∧ lo.length = numHops + 1)
  let nodeMap := nodeMappingOf subVers lo numHops
  guard (nodeMap.length = subVers.length)
  guard ((List.range numHops).all (fun l => (sortedLayer subVers lo l).all (fun pr => pr.2 = l)))
  let blocks ← optMapM
      (fun l => rowsOfLayer neighborList edgeList subVers lo neighPos numHops l)
      ((List.range (numHops - 1)).reverse)
  let rows := blocks.flatten
  let rowCounts := List.replicate (sortedLayer subVers lo (numHops - 1)).length 0
                    ++ rows.map (fun rc => rc.1.length)
  let indptr := rowCounts.scanl (· + ·) 0
  let layerOut := (((List.range numHops).reverse).map
                    (fun l => (sortedLayer subVers lo l).length)).scanl (· + ·) 0
  let flowOff := ((List.range (numHops - 1)).map
      (fun i => csrGetDegree indptr (layerOut.getD (i + 1) 0) (layerOut.getD (i + 2) 0))).scanl
      (· + ·) 0
  guard (rowCounts.length = subVers.length)
  guard (indptr.getLast? = some numEdges)
  guard (layerOut.getLast? = some subVers.length)
  guard (flowOff.getLast? = some numEdges)
  pure { nodeMapping := nodeMap,
         edgeMapping := (rows.map (fun rc => rc.2)).flatten,
         layerOffsets := layerOut,
         flowOffsets := flowOff,
         csrIndptr := indptr,
         csrCols := (rows.map (fun rc => rc.1)).flatten }

/-- `SampleSubgraph`: expansion followed by `ConstructNodeFlow`. -/
def sampleSubgraph (csr : Csr) (prob : Option (ℕ → ℚ)) (seeds : List ℕ)
    (numHops maxNum : ℕ) (rands : List ℕ) : Option NodeFlow := do
  let ex ← expandFrontier csr prob seeds numHops maxNum rands
  constructNodeFlow ex.neighborList ex.edgeList ex.lo ex.subVers ex.neighPos ex.numEdges numHops

/-- `SamplerOp::NeighborUniformSample(graph, seeds, edge_type, num_hops,
expand_factor)`: note it calls `SampleSubgraph` with `num_hops + 1`. -/
def neighborUniformSample (csr : Csr) (seeds : List ℕ) (numHops maxNum : ℕ)
    (rands : List ℕ) : Option NodeFlow :=
  sampleSubgraph csr none seeds (numHops + 1) maxNum rands

/-! ## SamplerOp::RandomWalk (sampler.cc, lines 486-525) -/

/-- inner step loop of one `(seed, trace)` walk: at each of the
`num_hops + 1` steps, record the current vertex, then look up its successor
list and index it by `rand_r(&random_seed) % size` — also after the final
vertex has been recorded. `size == 0` makes that access UB
(modulo by zero / out of bounds), modelled as `none`. `rnd k` is the value
`rand_r` returned at step `k`. -/
def walkGo (succ : ℕ → List ℕ) (rnd : ℕ → ℕ) : ℕ → ℕ → ℕ → Option (List ℕ)
  | 0, _, _ => some []
  | rem + 1, cur, k =>
    let s := succ cur
    if s.length = 0 then none
    else
      match walkGo succ rnd rem (s.getD (rnd k % s.length) 0) (k + 1) with
      | none => none
      | some tl => some (cur :: tl)

/-- one `(seed, trace)` walk of length `num_hops + 1`. -/
def walkTrace (succ : ℕ → List ℕ) (seedId numHops : ℕ) (rnd : ℕ → ℕ) : Option (List ℕ) :=
  walkGo succ rnd (numHops + 1) seedId 0

/-- `SamplerOp::RandomWalk(gptr, seeds, num_traces, num_hops)`: the dense
`(num_seeds, num_traces, num_hops+1)` trace buffer, as nested lists;
`rnd i j k` is the value the per-thread `rand_r` produced for step `k` of
trace `j` of seed `i` (threads are independent across `(i, j)`). -/
def randomWalk (succ : ℕ → List ℕ) (seeds : List ℕ) (numTraces numHops : ℕ)
    (rnd : ℕ → ℕ → ℕ → ℕ) : Option (List (List (List ℕ))) :=
  optMapM (fun i =>
    optMapM (fun j => walkTrace succ (seeds.getD i 0) numHops (rnd i j))
      (List.range numTraces))
    (List.range seeds.length)

/-! ## Proof-side definitions -/

/-- total weight of the not-yet-used indices — exactly the `accum` that
`Reconstruct` computes from a given `used` bitmap. -/
def unusedMass (used : List Bool) (prob : List ℚ) : ℚ :=
  (((List.range prob.length).filter (fun i => used.getD i false = false)).map
    (fun i => prob.getD i 0)).sum

/-- bookkeeping invariant of a without-replacement AliasSampler after `k`
successful draws: `accum` (set at the last `Reconstruct`) always equals the
mass drawn since (`taken`) plus the remaining unused mass. -/
def aliasInv (prob : List ℚ) (s : AliasState) (k : ℕ) : Prop :=
  s._prob = prob ∧ s.used.length = prob.length ∧ s.used.count true = k ∧
  0 ≤ s.taken ∧ s.accum = s.taken + unusedMass s.used prob

/-- the same bookkeeping invariant for the without-replacement CDFSampler. -/
def cdfInv (prob : List ℚ) (s : CdfState) (k : ℕ) : Prop :=
  s._prob = prob ∧ s.used.length = prob.length ∧ s.used.count true = k ∧
  0 ≤ s.taken ∧ s.accum = s.taken + unusedMass s.used prob

/-! ## Helper lemmas -/

theorem exIdx_ok {l : List α} {i : ℕ} {a : α} (h : exIdx l i = Except.ok a) :
    l[i]? = some a := by
  unfold exIdx at h
  cases hx : l[i]? with
  | none => rw [hx] at h; cases h
  | some b => rw [hx] at h; cases h; rfl

theorem exIdx_ok_lt {l : List α} {i : ℕ} {a : α} (h : exIdx l i = Except.ok a) :
    i < l.length := by
  have := exIdx_ok h
  exact (List.getElem?_eq_some.mp this).1

theorem sum_filter_ite (n : ℕ) (p : ℕ → Bool) (f : ℕ → ℚ) :
    (((List.range n).filter p).map f).sum
      = ((List.range n).map (fun i => if p i then f i else 0)).sum := by
  induction n with
  | zero => rfl
  | succ m ih =>
      rw [List.range_succ, List.filter_append, List.map_append, List.sum_append,
        List.map_append, List.sum_append, ih]
      by_cases hp : p m <;> simp [hp]

theorem sum_map_range_congr_sub (g g' : ℕ → ℚ) (n i : ℕ) (hi : i < n)
    (hcong : ∀ j, j ≠ i → g j = g' j) :
    ((List.range n).map g).sum = ((List.range n).map g').sum + g i - g' i := by
  induction n with
  | zero => omega
  | succ m ih =>
      rw [List.range_succ, List.map_append, List.sum_append, List.map_append,
        List.sum_append]
      rcases Nat.lt_succ_iff_lt_or_eq.mp hi with hlt | heq
      · rw [ih hlt]
        have hm : g m = g' m := hcong m (by omega)
        simp [hm]; ring
      · subst heq
        have : (List.range i).map g = (List.range i).map g' := by
          apply List.map_congr_left
          intro j hj
          exact hcong j (by have := List.mem_range.mp hj; omega)
        rw [this]; simp; ring

theorem count_set_true : ∀ (l : List Bool) (i : ℕ), i < l.length →
    l.getD i false = false → (l.set i true).count true = l.count true + 1 := by
  intro l
  induction l with
  | nil => intro i hi; simp at hi
  | cons b t ih =>
      intro i hi hg
      cases i with
      | zero =>
          simp only [List.getD_cons_zero] at hg
          subst hg
          simp [List.count_cons]
      | succ j =>
          simp only [List.length_cons, Nat.succ_lt_succ_iff] at hi
          simp only [List.getD_cons_succ] at hg
          simp only [List.set_cons_succ, List.count_cons, ih j hi hg]
          ring

theorem getD_set_ne (l : List Bool) (i j : ℕ) (hne : j ≠ i) :
    (l.set i true).getD j false = l.getD j false := by
  simp [List.getD, List.getElem?_set_ne (Ne.symm hne)]

theorem unusedMass_set (prob : List ℚ) (used : List Bool) (i : ℕ)
    (hi : i < prob.length) (hlen : i < used.length) (hu : used.getD i false = false) :
    unusedMass (used.set i true) prob = unusedMass used prob - prob.getD i 0 := by
  unfold unusedMass
  rw [sum_filter_ite, sum_filter_ite]
  have key := sum_map_range_congr_sub
    (fun j => if decide ((used.set i true).getD j false = false) = true then prob.getD j 0 else 0)
    (fun j => if decide (used.getD j false = false) = true then prob.getD j 0 else 0)
    prob.length i hi
    (by intro j hj; simp only [getD_set_ne used i j hj])
  rw [key]
  have hset : (used.set i true).getD i false = true := by
    simp [List.getD, List.getElem?_set_self hlen]
  simp only [List.getD_eq_getElem?_getD] at hset hu ⊢
  simp [hset, hu]

theorem all_used_of_count_eq {used : List Bool} (h : used.count true = used.length) :
    ∀ i, i < used.length → used.getD i false = true := by
  intro i hi
  have hall := List.count_eq_length.mp h
  have : used.getD i false ∈ used := by
    rw [List.getD_eq_getElem _ _ hi]
    exact List.getElem_mem hi
  exact (hall _ this).symm

theorem unusedMass_zero {prob : List ℚ} {used : List Bool}
    (hlen : used.length = prob.length)
    (h : ∀ i, i < used.length → used.getD i false = true) :
    unusedMass used prob = 0 := by
  unfold unusedMass
  have : (List.range prob.length).filter (fun i => used.getD i false = false) = [] := by
    rw [List.filter_eq_nil_iff]
    intro a ha
    have haa := List.mem_range.mp ha
    have hta := h a (by omega)
    simp only [List.getD_eq_getElem?_getD] at hta
    simp [hta]
  rw [this]
  rfl

theorem aliasReconstruct_ok {s s2 : AliasState} {prob : List ℚ}
    (h : aliasReconstruct s prob = Except.ok s2) :
    s2.used = s.used ∧ s2._prob = s._prob ∧ s2.taken = 0 ∧
    s2.accum = unusedMass s.used prob := by
  unfold aliasReconstruct at h
  dsimp only at h
  split at h
  · cases h
  · split at h
    · cases h
    · cases h
      exact ⟨rfl, rfl, rfl, rfl⟩

theorem except_bind_ok {ε α β : Type} {x : Except ε α} {f : α → Except ε β} {b : β}
    (h : (x >>= f) = Except.ok b) : ∃ a, x = Except.ok a ∧ f a = Except.ok b := by
  cases x with
  | error e => simp [Bind.bind, Except.bind] at h
  | ok a => exact ⟨a, rfl, by simpa [Bind.bind, Except.bind] using h⟩

theorem aliasReconstruct_fatal {s : AliasState} {prob : List ℚ}
    (h : ∀ i, i < prob.length → s.used.getD i false = true) :
    aliasReconstruct s prob = Except.error SErr.fatal := by
  unfold aliasReconstruct
  dsimp only
  have hf : (List.range prob.length).filter (fun i => s.used.getD i false = false) = [] := by
    rw [List.filter_eq_nil_iff]
    intro a ha
    have hta := h a (List.mem_range.mp ha)
    simp only [List.getD_eq_getElem?_getD] at hta
    simp [hta]
  rw [hf]
  simp

theorem getD_of_getElem? {l : List ℚ} {i : ℕ} {a : ℚ} (h : l[i]? = some a) :
    l.getD i 0 = a := by
  simp [List.getD_eq_getElem?_getD, h]

theorem getD_false_of_getElem? {l : List Bool} {i : ℕ} (h : l[i]? = some false) :
    l.getD i false = false := by
  simp [List.getD_eq_getElem?_getD, h]

theorem alias_step_inv {prob : List ℚ} (hw : ∀ w ∈ prob, 0 ≤ w) {s : AliasState} {k : ℕ}
    (hinv : aliasInv prob s k) {rstv : ℕ} {cap : ℚ}
    (hcap : exIdx s._prob rstv = Except.ok cap)
    (hur : exIdx s.used rstv = Except.ok false) :
    aliasInv prob
      { s with used := s.used.set rstv true, taken := s.taken + cap } (k + 1) := by
  obtain ⟨h1, h2, h3, h4, h5⟩ := hinv
  have hrlen : rstv < s.used.length := exIdx_ok_lt hur
  have hrget : s.used.getD rstv false = false := getD_false_of_getElem? (exIdx_ok hur)
  have hcap2 : prob[rstv]? = some cap := by
    have := exIdx_ok hcap
    rwa [h1] at this
  have hcapD : prob.getD rstv 0 = cap := getD_of_getElem? hcap2
  have hcapnn : 0 ≤ cap := hw cap (List.getElem?_mem hcap2)
  refine ⟨h1, ?_, ?_, ?_, ?_⟩
  · simpa using h2
  · simp only
    rw [count_set_true s.used rstv hrlen hrget, h3]
  · simpa using add_nonneg h4 hcapnn
  · have hrp : rstv < prob.length := by rw [← h2]; exact hrlen
    simp only
    rw [unusedMass_set prob s.used rstv hrp hrlen hrget, h5, hcapD]
    ring

theorem aliasDrawLoop_inv {prob : List ℚ} (hw : ∀ w ∈ prob, 0 ≤ w) :
    ∀ (dices : List ℚ) (s : AliasState) (avg : ℚ) (k : ℕ),
      aliasInv prob s k →
      ∀ {rst : ℕ} {s2 : AliasState} {rest : List ℚ},
      aliasDrawLoop s avg dices = Except.ok (rst, s2, rest) →
      aliasInv prob s2 (k + 1) := by
  intro dices
  induction dices with
  | nil =>
      intro s avg k hinv rst s2 rest hok
      simp [aliasDrawLoop] at hok
  | cons d rest' ih =>
      intro s avg k hinv rst s2 rest hok
      simp only [aliasDrawLoop] at hok
      obtain ⟨mi, hmi, hok⟩ := except_bind_ok hok
      obtain ⟨u, hu, hok⟩ := except_bind_ok hok
      split at hok
      · simp only [pure_bind] at hok
        obtain ⟨cap, hcap, hok⟩ := except_bind_ok hok
        obtain ⟨ur, hur, hok⟩ := except_bind_ok hok
        cases ur with
        | true =>
            simp only [if_true] at hok
            exact ih s avg k hinv hok
        | false =>
            simp only [Bool.false_eq_true, if_false] at hok
            cases hok
            exact alias_step_inv hw hinv hcap hur
      · obtain ⟨ki, hki, hok⟩ := except_bind_ok hok
        obtain ⟨rstv, hrstv, hok⟩ := except_bind_ok hok
        obtain ⟨cap, hcap, hok⟩ := except_bind_ok hok
        obtain ⟨ur, hur, hok⟩ := except_bind_ok hok
        cases ur with
        | true =>
            simp only [if_true] at hok
            exact ih s avg k hinv hok
        | false =>
            simp only [Bool.false_eq_true, if_false] at hok
            cases hok
            exact alias_step_inv hw hinv hcap hur

theorem aliasDraw_inv {prob : List ℚ} (hw : ∀ w ∈ prob, 0 ≤ w) {s : AliasState} {k : ℕ}
    (hinv : aliasInv prob s k) {dices : List ℚ} {rst : ℕ} {s2 : AliasState} {rest : List ℚ}
    (h : aliasDraw s dices = Except.ok (rst, s2, rest)) : aliasInv prob s2 (k + 1) := by
  unfold aliasDraw at h
  dsimp only at h
  split at h
  · obtain ⟨s3, hs3, h⟩ := except_bind_ok h
    have hinv3 : aliasInv prob s3 k := by
      obtain ⟨hu', hp', ht', ha'⟩ := aliasReconstruct_ok hs3
      obtain ⟨h1, h2, h3, h4, h5⟩ := hinv
      refine ⟨by rw [hp', h1], by rw [hu']; exact h2, by rw [hu']; exact h3,
        le_of_eq ht'.symm, ?_⟩
      rw [ha', ht', hu', h1]
      ring
    exact aliasDrawLoop_inv hw dices s3 _ k hinv3 h
  · simp only [pure_bind] at h
    exact aliasDrawLoop_inv hw dices s _ k hinv h

theorem aliasDrawN_inv {prob : List ℚ} (hw : ∀ w ∈ prob, 0 ≤ w) :
    ∀ (n : ℕ) (s : AliasState) (k : ℕ), aliasInv prob s k →
    ∀ {out : List ℕ × AliasState × List ℚ} {dices : List ℚ},
      aliasDrawN n s dices = Except.ok out → aliasInv prob out.2.1 (k + n) := by
  intro n
  induction n with
  | zero =>
      intro s k hinv out dices h
      simp only [aliasDrawN] at h
      cases h
      exact hinv
  | succ m ih =>
      intro s k hinv out dices h
      simp only [aliasDrawN] at h
      obtain ⟨⟨i1, s1, r1⟩, h1, h⟩ := except_bind_ok h
      obtain ⟨⟨is2, s2, r2⟩, h2, h⟩ := except_bind_ok h
      cases h
      have hi1 := aliasDraw_inv hw hinv h1
      have := ih s1 (k + 1) hi1 h2
      simpa [Nat.add_comm, Nat.add_assoc, Nat.add_left_comm] using this

theorem aliasInit_inv {prob : List ℚ} {s0 : AliasState}
    (h : aliasInit prob = Except.ok s0) : aliasInv prob s0 0 := by
  unfold aliasInit at h
  obtain ⟨hu, hp, ht, ha⟩ := aliasReconstruct_ok h
  refine ⟨hp, ?_, ?_, le_of_eq ht.symm, ?_⟩
  · rw [hu]; simp
  · rw [hu]; simp [List.count_replicate]
  · rw [ha, ht, hu]; ring

theorem aliasDraw_fatal_of_all_used {prob : List ℚ} {s : AliasState}
    (hinv : aliasInv prob s prob.length) :
    ∀ dices, aliasDraw s dices = Except.error SErr.fatal := by
  intro dices
  obtain ⟨h1, h2, h3, h4, h5⟩ := hinv
  have hall : ∀ i, i < s.used.length → s.used.getD i false = true :=
    all_used_of_count_eq (by rw [h3, h2])
  have hum : unusedMass s.used prob = 0 := unusedMass_zero h2 hall
  have hc : 2 * s.taken ≥ s.accum := by
    rw [h5, hum]
    linarith
  have hrec : aliasReconstruct s s._prob = Except.error SErr.fatal := by
    apply aliasReconstruct_fatal
    intro i hi
    exact hall i (by rw [h1] at hi; omega)
  unfold aliasDraw
  dsimp only
  rw [if_pos hc, hrec]
  rfl

theorem cdfReconstruct_ok {s s2 : CdfState} {prob : List ℚ}
    (h : cdfReconstruct s prob = Except.ok s2) :
    s2.used = s.used ∧ s2._prob = s._prob ∧ s2.taken = 0 ∧
    s2.accum = unusedMass s.used prob := by
  unfold cdfReconstruct at h
  dsimp only at h
  split at h
  · cases h
  · cases h
    exact ⟨rfl, rfl, rfl, rfl⟩

theorem cdfReconstruct_fatal {s : CdfState} {prob : List ℚ}
    (h : ∀ i, i < prob.length → s.used.getD i false = true) :
    cdfReconstruct s prob = Except.error SErr.fatal := by
  unfold cdfReconstruct
  dsimp only
  have hf : (List.range prob.length).filter (fun i => s.used.getD i false = false) = [] := by
    rw [List.filter_eq_nil_iff]
    intro a ha
    have hta := h a (List.mem_range.mp ha)
    simp only [List.getD_eq_getElem?_getD] at hta
    simp [hta]
  rw [hf]
  simp

theorem cdf_step_inv {prob : List ℚ} (hw : ∀ w ∈ prob, 0 ≤ w) {s : CdfState} {k : ℕ}
    (hinv : cdfInv prob s k) {rstv : ℕ} {cap : ℚ}
    (hcap : exIdx s._prob rstv = Except.ok cap)
    (hur : exIdx s.used rstv = Except.ok false) :
    cdfInv prob
      { s with used := s.used.set rstv true, taken := s.taken + cap } (k + 1) := by
  obtain ⟨h1, h2, h3, h4, h5⟩ := hinv
  have hrlen : rstv < s.used.length := exIdx_ok_lt hur
  have hrget : s.used.getD rstv false = false := getD_false_of_getElem? (exIdx_ok hur)
  have hcap2 : prob[rstv]? = some cap := by
    have := exIdx_ok hcap
    rwa [h1] at this
  have hcapD : prob.getD rstv 0 = cap := getD_of_getElem? hcap2
  have hcapnn : 0 ≤ cap := hw cap (List.getElem?_mem hcap2)
  refine ⟨h1, ?_, ?_, ?_, ?_⟩
  · simpa using h2
  · simp only
    rw [count_set_true s.used rstv hrlen hrget, h3]
  · simpa using add_nonneg h4 hcapnn
  · have hrp : rstv < prob.length := by rw [← h2]; exact hrlen
    simp only
    rw [unusedMass_set prob s.used rstv hrp hrlen hrget, h5, hcapD]
    ring

theorem cdfDrawLoop_inv {prob : List ℚ} (hw : ∀ w ∈ prob, 0 ≤ w) :
    ∀ (dices : List ℚ) (s : CdfState) (k : ℕ),
      cdfInv prob s k →
      ∀ {rst : ℕ} {s2 : CdfState} {rest : List ℚ},
      cdfDrawLoop s dices = Except.ok (rst, s2, rest) →
      cdfInv prob s2 (k + 1) := by
  intro dices
  induction dices with
  | nil =>
      intro s k hinv rst s2 rest hok
      simp [cdfDrawLoop] at hok
  | cons d rest' ih =>
      intro s k hinv rst s2 rest hok
      simp only [cdfDrawLoop] at hok
      split at hok
      · cases hok
      · obtain ⟨rstv, hrstv, hok⟩ := except_bind_ok hok
        obtain ⟨cap, hcap, hok⟩ := except_bind_ok hok
        obtain ⟨ur, hur, hok⟩ := except_bind_ok hok
        cases ur with
        | true =>
            simp only [if_true] at hok
            exact ih s k hinv hok
        | false =>
            simp only [Bool.false_eq_true, if_false] at hok
            cases hok
            exact cdf_step_inv hw hinv hcap hur

theorem cdfDraw_inv {prob : List ℚ} (hw : ∀ w ∈ prob, 0 ≤ w) {s : CdfState} {k : ℕ}
    (hinv : cdfInv prob s k) {dices : List ℚ} {rst : ℕ} {s2 : CdfState} {rest : List ℚ}
    (h : cdfDraw s dices = Except.ok (rst, s2, rest)) : cdfInv prob s2 (k + 1) := by
  unfold cdfDraw at h
  dsimp only at h
  split at h
  · obtain ⟨s3, hs3, h⟩ := except_bind_ok h
    have hinv3 : cdfInv prob s3 k := by
      obtain ⟨hu', hp', ht', ha'⟩ := cdfReconstruct_ok hs3
      obtain ⟨h1, h2, h3, h4, h5⟩ := hinv
      refine ⟨by rw [hp', h1], by rw [hu']; exact h2, by rw [hu']; exact h3,
        le_of_eq ht'.symm, ?_⟩
      rw [ha', ht', hu', h1]
      ring
    exact cdfDrawLoop_inv hw dices s3 k hinv3 h
  · simp only [pure_bind] at h
    exact cdfDrawLoop_inv hw dices s k hinv h

theorem cdfDrawN_inv {prob : List ℚ} (hw : ∀ w ∈ prob, 0 ≤ w) :
    ∀ (n : ℕ) (s : CdfState) (k : ℕ), cdfInv prob s k →
    ∀ {out : List ℕ × CdfState × List ℚ} {dices : List ℚ},
      cdfDrawN n s dices = Except.ok out → cdfInv prob out.2.1 (k + n) := by
  intro n
  induction n with
  | zero =>
      intro s k hinv out dices h
      simp only [cdfDrawN] at h
      cases h
      exact hinv
  | succ m ih =>
      intro s k hinv out dices h
      simp only [cdfDrawN] at h
      obtain ⟨⟨i1, s1, r1⟩, h1, h⟩ := except_bind_ok h
      obtain ⟨⟨is2, s2, r2⟩, h2, h⟩ := except_bind_ok h
      cases h
      have hi1 := cdfDraw_inv hw hinv h1
      have := ih s1 (k + 1) hi1 h2
      simpa [Nat.add_comm, Nat.add_assoc, Nat.add_left_comm] using this

theorem cdfInit_inv {prob : List ℚ} {s0 : CdfState}
    (h : cdfInit prob = Except.ok s0) : cdfInv prob s0 0 := by
  unfold cdfInit at h
  obtain ⟨hu, hp, ht, ha⟩ := cdfReconstruct_ok h
  refine ⟨hp, ?_, ?_, le_of_eq ht.symm, ?_⟩
  · rw [hu]; simp
  · rw [hu]; simp [List.count_replicate]
  · rw [ha, ht, hu]; ring

theorem cdfDraw_fatal_of_all_used {prob : List ℚ} {s : CdfState}
    (hinv : cdfInv prob s prob.length) :
    ∀ dices, cdfDraw s dices = Except.error SErr.fatal := by
  intro dices
  obtain ⟨h1, h2, h3, h4, h5⟩ := hinv
  have hall : ∀ i, i < s.used.length → s.used.getD i false = true :=
    all_used_of_count_eq (by rw [h3, h2])
  have hum : unusedMass s.used prob = 0 := unusedMass_zero h2 hall
  have hc : 2 * s.taken ≥ s.accum := by
    rw [h5, hum]
    linarith
  have hrec : cdfReconstruct s s._prob = Except.error SErr.fatal := by
    apply cdfReconstruct_fatal
    intro i hi
    exact hall i (by rw [h1] at hi; omega)
  unfold cdfDraw
  dsimp only
  rw [if_pos hc, hrec]
  rfl

/-! ## Claim theorems -/

/-- C1: the claim says that for strictly positive weights and k ≤ n draws,
every without-replacement WeightedSampler variant returns k pairwise-distinct
indices in [0, n).  The code violates this (code_bug): on the TreeSampler
with weights [1, 1] (n = 2, k = 2) both draws made with the dice value 0 —
valid, since `Uniform(0, weight[1])` can return 0 and the remaining total
weight stays positive (last conjunct) — return the same index 0: after the
first draw zeroes leaf 0, the descent compares `p > pivot` with
`p = pivot = 0` and still walks into the zeroed left subtree. -/
theorem C1_tree_duplicate_draw :
    (treeDraw (treeInit [1, 1]) 0).map Prod.fst = some 0 ∧
    ((treeDraw (treeInit [1, 1]) 0).bind (fun r => treeDraw r.2 0)).map Prod.fst = some 0 ∧
    0 < (treeInit [1, 1]).weight 1 ∧
    (treeDraw (treeInit [1, 1]) 0).map (fun r => decide (0 < r.2.weight 1)) = some true := by
  refine ⟨?_, ?_, ?_, ?_⟩ <;>
    norm_num [treeDraw, treeInit, treeResetState, treeNumLeafs, pow2Loop, sumBuild,
      treeDescend, treeZeroUp, Function.update]

/-- C2 counterexample: the claim says every without-replacement variant fails
fatally on the (n+1)-th draw.  The TreeSampler has no such check: over the
population [1] (n = 1) the first draw succeeds (and exhausts the population),
and a further `Draw()` still returns the index 0 instead of aborting —
`TreeSampler::Draw` has no failure path at all. -/
theorem C2_tree_draw_after_exhaustion_returns_index :
    (treeDraw (treeInit [1]) 0).map Prod.fst = some 0 ∧
    ((treeDraw (treeInit [1]) 0).bind (fun r => treeDraw r.2 0)).map Prod.fst = some 0 := by
  constructor <;>
    norm_num [treeDraw, treeInit, treeResetState, treeNumLeafs, pow2Loop, sumBuild,
      treeDescend, treeZeroUp, Function.update]

/-- C2 (amended): for the Alias and CDF variants the claim holds — built over
n strictly positive weights, after n successful `Draw()` calls every further
`Draw()` hits the `2*taken >= accum` rebuild, whose `Reconstruct` finds no
unused index and aborts with `LOG(FATAL)`, whatever dice are supplied.  (The
Tree variant, by the counterexample, silently returns an index instead.) -/
theorem C2_alias_cdf_fatal_after_n_draws :
    (∀ (prob : List ℚ) (s0 : AliasState) (dices : List ℚ)
        (out : List ℕ × AliasState × List ℚ),
        (∀ w ∈ prob, 0 < w) →
        aliasInit prob = Except.ok s0 →
        aliasDrawN prob.length s0 dices = Except.ok out →
        ∀ dices2, aliasDraw out.2.1 dices2 = Except.error SErr.fatal) ∧
    (∀ (prob : List ℚ) (s0 : CdfState) (dices : List ℚ)
        (out : List ℕ × CdfState × List ℚ),
        (∀ w ∈ prob, 0 < w) →
        cdfInit prob = Except.ok s0 →
        cdfDrawN prob.length s0 dices = Except.ok out →
        ∀ dices2, cdfDraw out.2.1 dices2 = Except.error SErr.fatal) := by
  constructor
  · intro prob s0 dices out hpos hinit hdraws
    have hw : ∀ w ∈ prob, 0 ≤ w := fun w hwm => le_of_lt (hpos w hwm)
    have hinv0 := aliasInit_inv hinit
    have hinvN := aliasDrawN_inv hw prob.length s0 0 hinv0 hdraws
    rw [Nat.zero_add] at hinvN
    exact aliasDraw_fatal_of_all_used hinvN
  · intro prob s0 dices out hpos hinit hdraws
    have hw : ∀ w ∈ prob, 0 ≤ w := fun w hwm => le_of_lt (hpos w hwm)
    have hinv0 := cdfInit_inv hinit
    have hinvN := cdfDrawN_inv hw prob.length s0 0 hinv0 hdraws
    rw [Nat.zero_add] at hinvN
    exact cdfDraw_fatal_of_all_used hinvN

/-- C2 witness: over the population [1], both the Alias and the CDF sampler
complete 1 successful draw and then fail fatally, by the amended theorem
applied at this concrete input. -/
theorem C2_alias_cdf_fatal_witness :
    ∃ (s0 : AliasState) (out : List ℕ × AliasState × List ℚ)
      (c0 : CdfState) (cout : List ℕ × CdfState × List ℚ),
      aliasInit [1] = Except.ok s0 ∧
      aliasDrawN 1 s0 [0] = Except.ok out ∧
      aliasDraw out.2.1 [] = Except.error SErr.fatal ∧
      cdfInit [1] = Except.ok c0 ∧
      cdfDrawN 1 c0 [0] = Except.ok cout ∧
      cdfDraw cout.2.1 [] = Except.error SErr.fatal := by
  have ha : aliasInit [1] = Except.ok
      { N := 1, accum := 1, taken := 0, K := [0], U := [1],
        _prob := [1], used := [false], id_mapping := [0] } := by
    norm_num [aliasInit, aliasReconstruct, aliasPair, List.range_succ]
  have hb : aliasDrawN 1
      { N := 1, accum := 1, taken := 0, K := [0], U := [1],
        _prob := [1], used := [false], id_mapping := [0] } [(0 : ℚ)] = Except.ok
      ([0], { N := 1, accum := 1, taken := 1, K := [0], U := [1],
              _prob := [1], used := [true], id_mapping := [0] }, []) := by
    norm_num [aliasDrawN, aliasDraw, aliasDrawLoop, exIdx, Bind.bind, Except.bind,
      Pure.pure, Except.pure, Rat.floor_def']
  have hc : cdfInit [1] = Except.ok
      { N := 1, accum := 1, taken := 0, _prob := [1], cdf := [0, 1],
        used := [false], id_mapping := [0] } := by
    norm_num [cdfInit, cdfReconstruct, List.range_succ]
  have hd : cdfDrawN 1
      { N := 1, accum := 1, taken := 0, _prob := [1], cdf := [0, 1],
        used := [false], id_mapping := [0] } [(0 : ℚ)] = Except.ok
      ([0], { N := 1, accum := 1, taken := 1, _prob := [1], cdf := [0, 1],
              used := [true], id_mapping := [0] }, []) := by
    norm_num [cdfDrawN, cdfDraw, cdfDrawLoop, cdfEps, lowerBoundIdx, exIdx,
      Bind.bind, Except.bind, Pure.pure, Except.pure, List.findIdx, List.findIdx.go]
  refine ⟨_, _, _, _, ha, hb, ?_, hc, hd, ?_⟩
  · exact C2_alias_cdf_fatal_after_n_draws.1 [1] _ [0] _ (by norm_num) ha hb []
  · exact C2_alias_cdf_fatal_after_n_draws.2 [1] _ [0] _ (by norm_num) hc hd []

theorem optMapM_forall2 {α β : Type} {f : α → Option β} :
    ∀ {l : List α} {out : List β}, optMapM f l = some out →
      List.Forall₂ (fun a b => f a = some b) l out := by
  intro l
  induction l with
  | nil =>
      intro out h
      cases h
      exact List.Forall₂.nil
  | cons a t ih =>
      intro out h
      simp only [optMapM] at h
      cases hfa : f a with
      | none => rw [hfa] at h; cases h
      | some b =>
          rw [hfa] at h
          cases hrec : optMapM f t with
          | none => rw [hrec] at h; cases h
          | some bs =>
              rw [hrec] at h
              cases h
              exact List.Forall₂.cons hfa (ih hrec)

theorem optMapM_length {α β : Type} {f : α → Option β} {l : List α} {out : List β}
    (h : optMapM f l = some out) : out.length = l.length :=
  (optMapM_forall2 h).length_eq.symm

theorem optMapM_getD {α β : Type} {f : α → Option β} {l : List α} {out : List β}
    (h : optMapM f l = some out) (d : α) (d2 : β) :
    ∀ i, i < l.length → f (l.getD i d) = some (out.getD i d2) := by
  intro i hi
  have h2 := optMapM_forall2 h
  have hlen := h2.length_eq
  rw [List.forall₂_iff_get] at h2
  have := h2.2 i hi (by omega)
  rwa [List.getD_eq_getElem _ _ hi, List.getD_eq_getElem _ _ (by omega)]

theorem forall2_mem_right {α β : Type} {R : α → β → Prop} :
    ∀ {l : List α} {out : List β}, List.Forall₂ R l out →
      ∀ {b}, b ∈ out → ∃ a ∈ l, R a b := by
  intro l out h
  induction h with
  | nil => intro b hb; cases hb
  | cons hr ht ih =>
      intro b hb
      rcases List.mem_cons.mp hb with hb | hb
      · subst hb
        exact ⟨_, List.mem_cons_self _ _, hr⟩
      · obtain ⟨a2, ha2, hr2⟩ := ih hb
        exact ⟨a2, List.mem_cons_of_mem _ ha2, hr2⟩

theorem optMapM_mem {α β : Type} {f : α → Option β} {l : List α} {out : List β}
    (h : optMapM f l = some out) {b : β} (hb : b ∈ out) : ∃ a ∈ l, f a = some b :=
  forall2_mem_right (optMapM_forall2 h) hb

theorem walkGo_ok_facts {succ : ℕ → List ℕ} {rnd : ℕ → ℕ} :
    ∀ (rem cur k : ℕ) {tr : List ℕ}, walkGo succ rnd rem cur k = some tr →
      tr.length = rem ∧ (1 ≤ rem → tr.head? = some cur) ∧
      List.Chain' (fun u v => v ∈ succ u) tr ∧ (∀ v ∈ tr, succ v ≠ []) := by
  intro rem
  induction rem with
  | zero =>
      intro cur k tr h
      cases h
      simp
  | succ m ih =>
      intro cur k tr h
      simp only [walkGo] at h
      split at h
      · cases h
      · rename_i hlen0
        cases hrec : walkGo succ rnd m ((succ cur).getD (rnd k % (succ cur).length) 0) (k + 1) with
        | none => rw [hrec] at h; cases h
        | some tl =>
            rw [hrec] at h
            cases h
            obtain ⟨hlen, hhead, hchain, hne⟩ := ih _ _ hrec
            have hpos : 0 < (succ cur).length := Nat.pos_of_ne_zero hlen0
            have hmem : (succ cur).getD (rnd k % (succ cur).length) 0 ∈ succ cur := by
              rw [List.getD_eq_getElem _ _ (Nat.mod_lt _ hpos)]
              exact List.getElem_mem _
            refine ⟨by simp [hlen], fun _ => rfl, ?_, ?_⟩
            · rw [List.chain'_cons']
              refine ⟨?_, hchain⟩
              intro b hb
              cases m with
              | zero =>
                  rw [List.length_eq_zero.mp hlen] at hb
                  cases hb
              | succ m2 =>
                  rw [hhead (by omega)] at hb
                  cases hb
                  exact hmem
            · intro v hv
              rcases List.mem_cons.mp hv with hv | hv
              · subst hv
                intro hcon
                exact hlen0 (by rw [hcon]; rfl)
              · exact hne v hv

/-- C9: whenever `RandomWalk` returns, the trace buffer has shape
`(|seeds|, num_traces, num_hops+1)`, every trace starts at its seed and every
consecutive pair of visited vertices follows a successor edge; and on the
3-cycle 0→1→2→0 with seeds=[0], num_traces=1, num_hops=3 the result is
exactly [0,1,2,0] no matter what the per-thread `rand_r` produces. -/
theorem C9_randomWalk_shape_steps_and_cycle :
    (∀ (succ : ℕ → List ℕ) (seeds : List ℕ) (nt nh : ℕ) (rnd : ℕ → ℕ → ℕ → ℕ)
        (out : List (List (List ℕ))),
        randomWalk succ seeds nt nh rnd = some out →
        out.length = seeds.length ∧
        ∀ i, i < seeds.length →
          (out.getD i []).length = nt ∧
          ∀ j, j < nt →
            ((out.getD i []).getD j []).length = nh + 1 ∧
            ((out.getD i []).getD j []).head? = some (seeds.getD i 0) ∧
            List.Chain' (fun u v => v ∈ succ u) ((out.getD i []).getD j [])) ∧
    (∀ rnd : ℕ → ℕ → ℕ → ℕ,
        randomWalk
          (fun v => if v = 0 then [1] else if v = 1 then [2] else if v = 2 then [0] else [])
          [0] 1 3 rnd = some [[[0, 1, 2, 0]]]) := by
  constructor
  · intro succ seeds nt nh rnd out h
    unfold randomWalk at h
    have hlen : out.length = seeds.length := by
      rw [optMapM_length h, List.length_range]
    refine ⟨hlen, ?_⟩
    intro i hi
    have hrow := optMapM_getD h 0 [] i (by rwa [List.length_range])
    have hri : (List.range seeds.length).getD i 0 = i := by
      rw [List.getD_eq_getElem _ _ (by simpa using hi)]
      simp
    rw [hri] at hrow
    have hrlen : (out.getD i []).length = nt := by
      rw [optMapM_length hrow, List.length_range]
    refine ⟨hrlen, ?_⟩
    intro j hj
    have htr := optMapM_getD hrow 0 [] j (by rwa [List.length_range])
    have hrj : (List.range nt).getD j 0 = j := by
      rw [List.getD_eq_getElem _ _ (by simpa using hj)]
      simp
    rw [hrj] at htr
    obtain ⟨htl, hth, htc, _⟩ := walkGo_ok_facts (nh + 1) (seeds.getD i 0) 0 htr
    exact ⟨htl, hth (by omega), htc⟩
  · intro rnd
    simp [randomWalk, optMapM, walkTrace, walkGo, List.range_succ, Nat.mod_one]

/-- C9 witness: the first conjunct of the theorem applied at the concrete
3-cycle run (with all `rand_r` values 0). -/
theorem C9_randomWalk_witness :
    [[[0, 1, 2, 0]]].length = [0].length ∧
    ([[[0, 1, 2, 0]]].getD 0 []).length = 1 ∧
    (([[[0, 1, 2, 0]]].getD 0 []).getD 0 []).length = 3 + 1 ∧
    (([[[0, 1, 2, 0]]].getD 0 []).getD 0 []).head? = some ([0].getD 0 0) ∧
    List.Chain'
      (fun u v =>
        v ∈ (fun v => if v = 0 then [1] else if v = 1 then [2] else if v = 2 then [0] else []) u)
      (([[[0, 1, 2, 0]]].getD 0 []).getD 0 []) := by
  have h := C9_randomWalk_shape_steps_and_cycle.1
    (fun v => if v = 0 then [1] else if v = 1 then [2] else if v = 2 then [0] else [])
    [0] 1 3 (fun _ _ _ => 0) [[[0, 1, 2, 0]]] (by decide)
  obtain ⟨h1, h2⟩ := h
  obtain ⟨h3, h4⟩ := h2 0 (by decide)
  obtain ⟨h5, h6, h7⟩ := h4 0 (by decide)
  exact ⟨h1, h3, h5, h6, h7⟩

/-- C10: the step body evaluates the successor lookup and the draw
`succ[rand_r % size]` at every position k = 0..num_hops — also after the last
vertex of the trace was recorded — so a returned buffer certifies that every
visited vertex, the final one included, has a non-empty successor list; a
walk that records a successor-less vertex anywhere (here: at its final
position) fails instead of returning. -/
theorem C10_walk_final_successor_lookup :
    (∀ (succ : ℕ → List ℕ) (seeds : List ℕ) (nt nh : ℕ) (rnd : ℕ → ℕ → ℕ → ℕ)
        (out : List (List (List ℕ))),
        randomWalk succ seeds nt nh rnd = some out →
        ∀ t ∈ out, ∀ tr ∈ t, ∀ v ∈ tr, succ v ≠ []) ∧
    walkTrace (fun v => if v = 0 then [1] else []) 0 1 (fun _ => 0) = none := by
  constructor
  · intro succ seeds nt nh rnd out h t ht tr htr v hv
    unfold randomWalk at h
    obtain ⟨i, _, hrow⟩ := optMapM_mem h ht
    obtain ⟨j, _, htr2⟩ := optMapM_mem hrow htr
    obtain ⟨_, _, _, hne⟩ := walkGo_ok_facts (nh + 1) (seeds.getD i 0) 0 htr2
    exact hne v hv
  · rfl

/-- C10 witness: the general conjunct applied at the concrete 3-cycle run. -/
theorem C10_walk_witness :
    (fun v => if v = 0 then [1] else if v = 1 then [2] else if v = 2 then [0] else []) 0 ≠
      ([] : List ℕ) := by
  exact C10_walk_final_successor_lookup.1
    (fun v => if v = 0 then [1] else if v = 1 then [2] else if v = 2 then [0] else [])
    [0] 1 3 (fun _ _ _ => 0) [[[0, 1, 2, 0]]] (by decide)
    [[0, 1, 2, 0]] (by decide) [0, 1, 2, 0] (by decide) 0 (by decide)

theorem opt_bind_ok {α β : Type} {x : Option α} {f : α → Option β} {b : β}
    (h : (x >>= f) = some b) : ∃ a, x = some a ∧ f a = some b := by
  cases x with
  | none => cases h
  | some a => exact ⟨a, rfl, h⟩

theorem randomSampleGo_mem {setSize num : ℕ} (hpos : 0 < setSize) :
    ∀ (rands acc : List ℕ), (∀ x ∈ acc, x < setSize) →
      ∀ {out rest : List ℕ}, randomSampleGo setSize num rands acc = some (out, rest) →
      ∀ x ∈ out, x < setSize := by
  intro rands
  induction rands with
  | nil =>
      intro acc hacc out rest h
      simp only [randomSampleGo] at h
      split at h
      · cases h; exact hacc
      · cases h
  | cons r t ih =>
      intro acc hacc out rest h
      simp only [randomSampleGo] at h
      split at h
      · cases h; exact hacc
      · refine ih _ ?_ h
        intro x hx
        split at hx
        · exact hacc x hx
        · rcases List.mem_append.mp hx with hx | hx
          · exact hacc x hx
          · rcases List.mem_singleton.mp hx with rfl
            exact Nat.mod_lt _ hpos

theorem randomSample_mem {setSize num : ℕ} (hpos : 0 < setSize)
    {rands out rest : List ℕ} (h : randomSample setSize num rands = some (out, rest)) :
    ∀ x ∈ out, x < setSize :=
  randomSampleGo_mem hpos rands [] (by simp) h

theorem negGo_mem : ∀ (left : ℕ) (it : List ℕ) (i x : ℕ),
    x ∈ negGo left it i → x < i + left := by
  intro left
  induction left with
  | zero => intro it i x h; simp [negGo] at h
  | succ m ih =>
      intro it i x h
      cases it with
      | nil =>
          simp only [negGo] at h
          rcases List.mem_cons.mp h with rfl | h
          · omega
          · have := ih [] (i + 1) x h
            omega
      | cons j rest =>
          simp only [negGo] at h
          split at h
          · have := ih rest (i + 1) x h
            omega
          · rcases List.mem_cons.mp h with rfl | h
            · omega
            · have := ih (j :: rest) (i + 1) x h
              omega

theorem negateArray_mem {nz out : List ℕ} {arrSize : ℕ}
    (h : negateArray nz arrSize = some out) : ∀ x ∈ out, x < arrSize := by
  intro x hx
  unfold negateArray at h
  cases hl : nz.getLast? with
  | none => rw [hl] at h; cases h
  | some b =>
      rw [hl] at h
      dsimp only at h
      by_cases hb : b < arrSize
      · rw [if_pos hb] at h
        cases h
        have := negGo_mem arrSize nz 0 x hx
        omega
      · rw [if_neg hb] at h
        cases h

theorem pairwiseLtB_chain' : ∀ {l : List ℕ}, pairwiseLtB l = true → List.Chain' (· < ·) l := by
  intro l
  induction l with
  | nil => intro; exact List.chain'_nil
  | cons a t ih =>
      intro h
      cases t with
      | nil => exact List.chain'_singleton a
      | cons b t2 =>
          simp only [pairwiseLtB, Bool.and_eq_true, decide_eq_true_eq] at h
          exact List.Chain'.cons h.1 (ih (by simpa using h.2))

/-- C7: whenever `GetUniformSample` returns: for a neighbor slice of length
`L ≤ k` the ids are copied verbatim; for `L > k` the output pairs sit at `k`
strictly increasing slice positions below `L`, obtained by excluding
`L - k` sampled positions when `L ≤ 2k` and by directly sampling `k`
positions when `L > 2k` (sorted-unique random index generation each way). -/
theorem C7_uniform_sample_selection :
    ∀ (eids vids rands : List ℕ) (L k : ℕ) (outV outE rest : List ℕ),
      getUniformSample eids vids L k rands = some (outV, outE, rest) →
      (L ≤ k → outV = vids ∧ outE = eids ∧ rest = rands) ∧
      (k < L →
        ∃ ps : List ℕ, ps.length = k ∧ List.Chain' (· < ·) ps ∧ (∀ p ∈ ps, p < L) ∧
          optMapM (fun idx => vids[idx]?) ps = some outV ∧
          optMapM (fun idx => eids[idx]?) ps = some outE ∧
          (k * 2 < L → ∃ s rest2, randomSample L k rands = some (s, rest2) ∧
              ps = s.insertionSort (· ≤ ·) ∧ rest = rest2) ∧
          (L ≤ k * 2 → ∃ neg rest2, randomSample L (L - k) rands = some (neg, rest2) ∧
              negateArray (neg.insertionSort (· ≤ ·)) L = some ps ∧ rest = rest2)) := by
  intro eids vids rands L k outV outE rest h
  by_cases hle : L ≤ k
  · unfold getUniformSample at h
    rw [if_pos hle] at h
    cases h
    exact ⟨fun _ => ⟨rfl, rfl, rfl⟩, fun hlt => absurd hlt (by omega)⟩
  · refine ⟨fun hc => absurd hc hle, fun hlt => ?_⟩
    have hpos : 0 < L := by omega
    unfold getUniformSample at h
    rw [if_neg hle] at h
    dsimp only at h
    split at h
    · rename_i hdir
      obtain ⟨⟨s, rest2⟩, hrs, h⟩ := opt_bind_ok h
      dsimp only at h
      simp only [pure_bind] at h
      split at h
      · rename_i hcheck
        obtain ⟨ov, hov, h⟩ := opt_bind_ok h
        obtain ⟨oe, hoe, h⟩ := opt_bind_ok h
        cases h
        refine ⟨s.insertionSort (· ≤ ·), hcheck.1, pairwiseLtB_chain' hcheck.2, ?_,
          hov, hoe, fun _ => ⟨s, _, hrs, rfl, rfl⟩, fun hcon => absurd hcon (by omega)⟩
        intro x hx
        exact randomSample_mem hpos hrs x ((List.perm_insertionSort _ _).mem_iff.mp hx)
      · cases h
    · rename_i hexc
      obtain ⟨⟨ng, rest2⟩, hng, h⟩ := opt_bind_ok h
      dsimp only at h
      obtain ⟨si2, hsi2, h⟩ := opt_bind_ok h
      simp only [pure_bind] at h
      split at h
      · rename_i hcheck
        obtain ⟨ov, hov, h⟩ := opt_bind_ok h
        obtain ⟨oe, hoe, h⟩ := opt_bind_ok h
        cases h
        exact ⟨si2, hcheck.1, pairwiseLtB_chain' hcheck.2, negateArray_mem hsi2,
          hov, hoe, fun hcon => absurd hcon (by omega), fun _ => ⟨ng, _, hng, hsi2, rfl⟩⟩
      · cases h

/-- C7 witness: the theorem applied at a concrete slice of length 3 with
fan-out 2 (the exclusion branch: one position is sampled out). -/
theorem C7_uniform_sample_witness :
    ∃ ps : List ℕ, ps.length = 2 ∧ List.Chain' (· < ·) ps ∧ (∀ p ∈ ps, p < 3) ∧
      optMapM (fun idx => [10, 20, 30][idx]?) ps = some [10, 20] ∧
      optMapM (fun idx => [0, 1, 2][idx]?) ps = some [0, 1] ∧
      (2 * 2 < 3 → ∃ s rest2, randomSample 3 2 [5] = some (s, rest2) ∧
          ps = s.insertionSort (· ≤ ·) ∧ ([] : List ℕ) = rest2) ∧
      (3 ≤ 2 * 2 → ∃ neg rest2, randomSample 3 (3 - 2) [5] = some (neg, rest2) ∧
          negateArray (neg.insertionSort (· ≤ ·)) 3 = some ps ∧ ([] : List ℕ) = rest2) :=
  (C7_uniform_sample_selection [0, 1, 2] [10, 20, 30] [5] 3 2 [10, 20] [0, 1] []
    (by decide)).2 (by decide)

theorem heapSWOR_length :
    ∀ (n : ℕ) (s : HeapState) (rands : List ℕ) {spIndex : List ℕ} {s2 : HeapState}
      {rest : List ℕ},
      heapSWOR s n rands = some (spIndex, s2, rest) → spIndex.length = n := by
  intro n
  induction n with
  | zero =>
      intro s rands spIndex s2 rest h
      cases h
      rfl
  | succ m ih =>
      intro s rands spIndex s2 rest h
      simp only [heapSWOR] at h
      cases rands with
      | nil => cases h
      | cons r t =>
          dsimp only at h
          cases hs : heapSample s r with
          | none => rw [hs] at h; cases h
          | some idx =>
              rw [hs] at h
              dsimp only at h
              cases hrec : heapSWOR (heapDelete s idx) m t with
              | none => rw [hrec] at h; cases h
              | some tri =>
                  rw [hrec] at h
                  obtain ⟨is2, s3, rest2⟩ := tri
                  dsimp only at h
                  cases h
                  simp [ih (heapDelete s idx) t hrec]

/-- C8: whenever `GetNonUniformSample` returns on a slice of length `L > k`:
the `k` slice positions were drawn without replacement by the ArrayHeap built
over the per-neighbor probabilities, and the resulting vertex ids and edge
ids are then each sorted ascending, independently; consequently, on the
concrete slice with vids [10,20,30] and eids [300,200,100] (weights all 1,
sampled positions 0 and 2), the output pairs 10 with 100 even though no input
neighbor carries that (vertex id, edge id) combination. -/
theorem C8_nonuniform_sorts_vertices_and_edges_independently :
    (∀ (pr : ℕ → ℚ) (eids vids rands : List ℕ) (L k : ℕ) (outV outE rest : List ℕ),
        getNonUniformSample pr eids vids L k rands = some (outV, outE, rest) →
        k < L →
        ∃ (spIndex : List ℕ) (s2 : HeapState) (rest2 : List ℕ),
          heapSWOR (heapInit (vids.map pr)) k rands = some (spIndex, s2, rest2) ∧
          spIndex.length = k ∧
          (∃ rawV, optMapM (fun idx => vids[idx]?) spIndex = some rawV ∧
            outV = rawV.insertionSort (· ≤ ·)) ∧
          (∃ rawE, optMapM (fun idx => eids[idx]?) spIndex = some rawE ∧
            outE = rawE.insertionSort (· ≤ ·)) ∧
          rest = rest2) ∧
    (getNonUniformSample (fun _ => 1) [300, 200, 100] [10, 20, 30] 3 2 [0, 51] =
        some ([10, 30], [100, 300], []) ∧
      ∀ j, j < 3 → ¬ ([10, 20, 30].getD j 0 = 10 ∧ [300, 200, 100].getD j 0 = 100)) := by
  constructor
  · intro pr eids vids rands L k outV outE rest h hlt
    unfold getNonUniformSample at h
    rw [if_neg (by omega)] at h
    obtain ⟨⟨spIndex, s2, rest2⟩, hswor, h⟩ := opt_bind_ok h
    dsimp only at h
    obtain ⟨rawV, hrawV, h⟩ := opt_bind_ok h
    obtain ⟨rawE, hrawE, h⟩ := opt_bind_ok h
    cases h
    exact ⟨spIndex, s2, _, hswor, heapSWOR_length k _ rands hswor,
      ⟨rawV, hrawV, rfl⟩, ⟨rawE, hrawE, rfl⟩, rfl⟩
  · constructor
    · norm_num [getNonUniformSample, heapInit, clog2, clog2Loop, sumBuild, heapSWOR,
        heapSample, heapDescend, heapDelete, heapDeleteLoop, Function.update, optMapM,
        List.insertionSort, List.orderedInsert]
    · decide

/-- C8 witness: the general conjunct applied at the concrete weighted slice. -/
theorem C8_nonuniform_witness :
    ∃ (spIndex : List ℕ) (s2 : HeapState) (rest2 : List ℕ),
      heapSWOR (heapInit ([10, 20, 30].map (fun _ => (1 : ℚ)))) 2 [0, 51] =
        some (spIndex, s2, rest2) ∧
      spIndex.length = 2 ∧
      (∃ rawV, optMapM (fun idx => [10, 20, 30][idx]?) spIndex = some rawV ∧
        [10, 30] = rawV.insertionSort (· ≤ ·)) ∧
      (∃ rawE, optMapM (fun idx => [300, 200, 100][idx]?) spIndex = some rawE ∧
        [100, 300] = rawE.insertionSort (· ≤ ·)) ∧
      ([] : List ℕ) = rest2 := by
  apply C8_nonuniform_sorts_vertices_and_edges_independently.1
      (fun _ => 1) [300, 200, 100] [10, 20, 30] [0, 51] 3 2 [10, 30] [100, 300] []
  · exact C8_nonuniform_sorts_vertices_and_edges_independently.2.1
  · omega

theorem opt_guard_ok {c : Prop} [Decidable c] (h : (guard c : Option Unit) = some ()) : c := by
  by_cases hc : c
  · exact hc
  · simp [guard, hc] at h

theorem constructNodeFlow_fields {nl el : List ℕ} {lo : List ℕ} {sv : List (ℕ × ℕ)}
    {np : List (ℕ × ℕ × ℕ)} {ne nh : ℕ} {nf : NodeFlow}
    (h : constructNodeFlow nl el lo sv np ne nh = some nf) :
    1 ≤ nh ∧ lo.length = nh + 1 ∧
    nf.nodeMapping = nodeMappingOf sv lo nh ∧
    nf.nodeMapping.length = sv.length ∧
    nf.layerOffsets =
      (((List.range nh).reverse).map (fun l => (sortedLayer sv lo l).length)).scanl (· + ·) 0 ∧
    nf.layerOffsets.getLast? = some sv.length ∧
    nf.csrIndptr.getLast? = some ne ∧
    nf.flowOffsets.getLast? = some ne ∧
    nf.flowOffsets =
      ((List.range (nh - 1)).map
        (fun i => csrGetDegree nf.csrIndptr (nf.layerOffsets.getD (i + 1) 0)
          (nf.layerOffsets.getD (i + 2) 0))).scanl (· + ·) 0 ∧
    ∃ blocks : List (List (List ℕ × List ℕ)),
      optMapM (fun l => rowsOfLayer nl el sv lo np nh l) ((List.range (nh - 1)).reverse) =
        some blocks ∧
      nf.csrIndptr =
        (List.replicate (sortedLayer sv lo (nh - 1)).length 0 ++
          blocks.flatten.map (fun rc : List ℕ × List ℕ => rc.1.length)).scanl (· + ·) 0 ∧
      nf.csrCols = (blocks.flatten.map (fun rc => rc.1)).flatten ∧
      nf.edgeMapping = (blocks.flatten.map (fun rc => rc.2)).flatten ∧
      (List.replicate (sortedLayer sv lo (nh - 1)).length 0 ++
          blocks.flatten.map (fun rc : List ℕ × List ℕ => rc.1.length)).length = sv.length := by
  unfold constructNodeFlow at h
  obtain ⟨⟨⟩, hg1, h⟩ := opt_bind_ok h
  dsimp only at h
  obtain ⟨⟨⟩, hg2, h⟩ := opt_bind_ok h
  obtain ⟨⟨⟩, hg3, h⟩ := opt_bind_ok h
  obtain ⟨blocks, hblocks, h⟩ := opt_bind_ok h
  obtain ⟨⟨⟩, hg4, h⟩ := opt_bind_ok h
  obtain ⟨⟨⟩, hg5, h⟩ := opt_bind_ok h
  obtain ⟨⟨⟩, hg6, h⟩ := opt_bind_ok h
  obtain ⟨⟨⟩, hg7, h⟩ := opt_bind_ok h
  cases h
  exact ⟨(opt_guard_ok hg1).1, (opt_guard_ok hg1).2, rfl, opt_guard_ok hg2, rfl,
    opt_guard_ok hg6, opt_guard_ok hg5, opt_guard_ok hg7, rfl,
    blocks, hblocks, rfl, rfl, rfl, opt_guard_ok hg4⟩

/-- C5 counterexample: the claim ties the offsets lengths to the hop-count
argument of the public entry point, but `NeighborUniformSample` calls
`SampleSubgraph` with `num_hops + 1`: on the path graph 0→1 with seeds [0]
and public `num_hops = 1`, the returned `layer_offsets` has length 3 (not
1+1 = 2) and `flow_offsets` has length 2 (not 1). -/
theorem C5_public_arg_offsets_counterexample :
    (neighborUniformSample { indptr := [0, 1, 1], indices := [1], edgeIds := [0] }
        [0] 1 10 []).map (fun nf => (nf.layerOffsets.length, nf.flowOffsets.length)) =
      some (3, 2) ∧
    ¬ ((3 : ℕ) = 1 + 1 ∧ (2 : ℕ) = 1) := by
  constructor
  · rfl
  · decide

/-- C5 (amended): relative to the public entry point's `num_hops` argument,
the returned `layer_offsets` has length `num_hops + 2` and `flow_offsets`
has length `num_hops + 1` (i.e. internal-hop-count + 1 and internal-hop-count,
where the internal hop count is `num_hops + 1`). -/
theorem C5_offsets_lengths :
    ∀ (csr : Csr) (seeds : List ℕ) (numHops maxNum : ℕ) (rands : List ℕ) (nf : NodeFlow),
      neighborUniformSample csr seeds numHops maxNum rands = some nf →
      nf.layerOffsets.length = numHops + 2 ∧ nf.flowOffsets.length = numHops + 1 := by
  intro csr seeds nh mx rands nf h
  unfold neighborUniformSample sampleSubgraph at h
  obtain ⟨ex, hex, h⟩ := opt_bind_ok h
  obtain ⟨_, _, _, _, hlay, _, _, _, hflow, _⟩ := constructNodeFlow_fields h
  constructor
  · rw [hlay, List.length_scanl, List.length_map, List.length_reverse, List.length_range]
  · rw [hflow, List.length_scanl, List.length_map, List.length_range]
    omega

/-- C5 witness: the amended theorem applied at the concrete path-graph call. -/
theorem C5_offsets_lengths_witness :
    ({ nodeMapping := [1, 0], edgeMapping := [0], layerOffsets := [0, 1, 2],
       flowOffsets := [0, 1], csrIndptr := [0, 0, 1], csrCols := [0] } :
        NodeFlow).layerOffsets.length = 1 + 2 ∧
    ({ nodeMapping := [1, 0], edgeMapping := [0], layerOffsets := [0, 1, 2],
       flowOffsets := [0, 1], csrIndptr := [0, 0, 1], csrCols := [0] } :
        NodeFlow).flowOffsets.length = 1 + 1 :=
  C5_offsets_lengths { indptr := [0, 1, 1], indices := [1], edgeIds := [0] } [0] 1 10 [] _
    (by rfl)

theorem nodup_append_singleton {l : List ℕ} {v : ℕ} (h1 : l.Nodup) (h2 : v ∉ l) :
    (l ++ [v]).Nodup := by
  simp [List.nodup_append, h1, h2]

theorem seg_append {l t : List α} {a b : ℕ} (ha : a ≤ l.length) (hb : b ≤ l.length) :
    seg (l ++ t) a b = seg l a b := by
  unfold seg
  rw [List.drop_append_of_le_length ha]
  rcases Nat.le_total b a with hba | hab
  · have : b - a = 0 := by omega
    simp [this]
  · rw [List.take_append_of_le_length]
    simp
    omega

theorem seg_append_self (l t : List α) : seg (l ++ t) l.length (l.length + t.length) = t := by
  unfold seg
  rw [List.drop_left]
  simp

theorem pushNews_spec (lvl : ℕ) : ∀ (vs m : List ℕ) (sv : List (ℕ × ℕ)),
    ∃ d : List ℕ, pushNews lvl vs m sv = (m ++ d, sv ++ d.map (fun v => (v, lvl))) ∧
      (m.Nodup → (m ++ d).Nodup) := by
  intro vs
  induction vs with
  | nil =>
      intro m sv
      exact ⟨[], by simp [pushNews], by simp⟩
  | cons v t ih =>
      intro m sv
      by_cases hv : v ∈ m
      · obtain ⟨d, hd, hnd⟩ := ih m sv
        refine ⟨d, ?_, hnd⟩
        simp [pushNews, hv, hd]
      · obtain ⟨d, hd, hnd⟩ := ih (m ++ [v]) (sv ++ [(v, lvl)])
        refine ⟨v :: d, ?_, ?_⟩
        · simp [pushNews, hv, hd]
        · intro hmn
          have := hnd (nodup_append_singleton hmn hv)
          simpa using this

theorem addSeeds_spec : ∀ (vs m : List ℕ) (sv : List (ℕ × ℕ)),
    ∃ d : List ℕ, addSeeds vs m sv = (m ++ d, sv ++ d.map (fun v => (v, 0))) ∧
      (m.Nodup → (m ++ d).Nodup) := by
  intro vs
  induction vs with
  | nil =>
      intro m sv
      exact ⟨[], by simp [addSeeds], by simp⟩
  | cons v t ih =>
      intro m sv
      by_cases hv : v ∈ m
      · obtain ⟨d, hd, hnd⟩ := ih m sv
        refine ⟨d, ?_, hnd⟩
        simp [addSeeds, hv, hd]
      · obtain ⟨d, hd, hnd⟩ := ih (m ++ [v]) (sv ++ [(v, 0)])
        refine ⟨v :: d, ?_, ?_⟩
        · simp [addSeeds, hv, hd]
        · intro hmn
          have := hnd (nodup_append_singleton hmn hv)
          simpa using this

theorem processVertex_spec {csr : Csr} {prob : Option (ℕ → ℚ)} {mx : ℕ}
    {st st2 : ExpandSt} {idx : ℕ} (h : processVertex csr prob mx st idx = some st2) :
    ∃ (d : List ℕ) (lv : ℕ),
      st2.curMap = st.curMap ++ d ∧
      st2.subVers = st.subVers ++ d.map (fun v => (v, lv)) ∧
      (st.curMap.Nodup → st2.curMap.Nodup) := by
  unfold processVertex at h
  obtain ⟨⟨dstId, lvl⟩, hget, h⟩ := opt_bind_ok h
  dsimp only at h
  obtain ⟨a, ha, h⟩ := opt_bind_ok h
  obtain ⟨b, hb, h⟩ := opt_bind_ok h
  split at h
  · cases prob with
    | none =>
        dsimp only at h
        obtain ⟨⟨vs, es, r2⟩, hsamp, h⟩ := opt_bind_ok h
        dsimp only at h
        obtain ⟨d, hd, hnd⟩ := pushNews_spec (lvl + 1) vs st.curMap st.subVers
        rw [hd] at h
        cases h
        exact ⟨d, lvl + 1, rfl, rfl, fun hn => hnd hn⟩
    | some pr =>
        dsimp only at h
        obtain ⟨⟨vs, es, r2⟩, hsamp, h⟩ := opt_bind_ok h
        dsimp only at h
        obtain ⟨d, hd, hnd⟩ := pushNews_spec (lvl + 1) vs st.curMap st.subVers
        rw [hd] at h
        cases h
        exact ⟨d, lvl + 1, rfl, rfl, fun hn => hnd hn⟩
  · cases h

theorem processRange_spec (csr : Csr) (prob : Option (ℕ → ℚ)) (mx : ℕ) :
    ∀ (cnt : ℕ) (st : ExpandSt) (idx : ℕ) {st2 : ExpandSt},
      processRange csr prob mx cnt st idx = some st2 →
      ∃ d : List (ℕ × ℕ),
        st2.subVers = st.subVers ++ d ∧
        st2.curMap = st.curMap ++ d.map Prod.fst ∧
        (st.curMap.Nodup → st2.curMap.Nodup) := by
  intro cnt
  induction cnt with
  | zero =>
      intro st idx st2 h
      cases h
      exact ⟨[], by simp, by simp, fun hn => hn⟩
  | succ m ih =>
      intro st idx st2 h
      simp only [processRange] at h
      obtain ⟨st1, h1, h⟩ := opt_bind_ok h
      obtain ⟨d1, lv1, hm1, hs1, hn1⟩ := processVertex_spec h1
      obtain ⟨d2, hs2, hm2, hn2⟩ := ih st1 (idx + 1) h
      refine ⟨d1.map (fun v => (v, lv1)) ++ d2, ?_, ?_, ?_⟩
      · rw [hs2, hs1, List.append_assoc]
      · simp only [hm2, hm1, List.map_append, List.map_map, List.append_assoc]
        have : Prod.fst ∘ (fun v : ℕ => (v, lv1)) = id := by
          funext v
          rfl
        rw [this, List.map_id]
      · intro hn
        exact hn2 (hn1 hn)

theorem seg_self (l : List α) : seg l 0 l.length = l := by
  simp [seg]

theorem expandLoop_slices (csr : Csr) (prob : Option (ℕ → ℚ)) (mx : ℕ) :
    ∀ (rem : ℕ) (st : ExpandSt) (lo : List ℕ) (a b : ℕ),
      b = st.subVers.length →
      lo.getD (lo.length - 1) 0 = b →
      (∀ i, i < lo.length → lo.getD i 0 ≤ st.subVers.length) →
      (∀ i, i + 1 < lo.length →
        ((seg st.subVers (lo.getD i 0) (lo.getD (i + 1) 0)).map Prod.fst).Nodup) →
      ∀ {out : ExpandSt × List ℕ},
        expandLoop csr prob mx rem st lo a b = some out →
        ∀ i, i + 1 < out.2.length →
          ((seg out.1.subVers (out.2.getD i 0) (out.2.getD (i + 1) 0)).map Prod.fst).Nodup := by
  intro rem
  induction rem with
  | zero =>
      intro st lo a b hb hlast hbound hslice out h i hi
      cases h
      exact hslice i hi
  | succ m ih =>
      intro st lo a b hb hlast hbound hslice out h i hi
      simp only [expandLoop] at h
      obtain ⟨st2, h2, h⟩ := opt_bind_ok h
      obtain ⟨d, hsv, hcm, hnd⟩ :=
        processRange_spec csr prob mx (b - a) { st with curMap := [] } a h2
      dsimp only at hsv hcm
      split at h
      · rename_i hc
        have hdm : st2.curMap = d.map Prod.fst := by simpa using hcm
        have hlen2 : st2.subVers.length = st.subVers.length + d.length := by
          rw [hsv]
          simp
        refine ih st2 (lo ++ [b + st2.curMap.length]) b (b + st2.curMap.length) hc ?_ ?_ ?_ h i hi
        · simp only [List.length_append, List.length_singleton]
          rw [List.getD_append_right _ _ _ _ (by omega)]
          simp
        · intro j hj
          simp only [List.length_append, List.length_singleton] at hj
          rcases Nat.lt_succ_iff_lt_or_eq.mp hj with hj | hj
          · rw [List.getD_append _ _ _ _ hj]
            calc lo.getD j 0 ≤ st.subVers.length := hbound j hj
              _ ≤ st2.subVers.length := by omega
          · subst hj
            rw [List.getD_append_right _ _ _ _ (le_refl _)]
            simp [hc]
        · intro j hj
          simp only [List.length_append, List.length_singleton] at hj
          rcases Nat.lt_succ_iff_lt_or_eq.mp hj with hj | hj
          · rw [List.getD_append _ _ _ _ (by omega), List.getD_append _ _ _ _ hj]
            rw [hsv, seg_append (hbound j (by omega)) (hbound (j + 1) hj)]
            exact hslice j hj
          · have hj3 : j = lo.length - 1 := by omega
            rw [List.getD_append _ _ _ _ (by omega),
              List.getD_append_right _ _ _ _ (by omega)]
            have hj4 : j + 1 - lo.length = 0 := by omega
            rw [hj4]
            simp only [List.getD_cons_zero]
            have hjval : lo.getD j 0 = st.subVers.length := by
              rw [hj3, hlast, hb]
            rw [hjval]
            have hseg : seg st2.subVers st.subVers.length (b + st2.curMap.length) = d := by
              rw [hsv]
              have hlen : b + st2.curMap.length = st.subVers.length + d.length := by
                rw [hb, hdm]
                simp
              rw [hlen]
              exact seg_append_self _ _
            rw [hseg, ← hdm]
            exact hnd List.nodup_nil
      · cases h

theorem expandFrontier_slices {csr : Csr} {prob : Option (ℕ → ℚ)} {seeds : List ℕ}
    {numHops maxNum : ℕ} {rands : List ℕ} {ex : ExpandOut}
    (h : expandFrontier csr prob seeds numHops maxNum rands = some ex) :
    ∀ i, i + 1 < ex.lo.length →
      ((seg ex.subVers (ex.lo.getD i 0) (ex.lo.getD (i + 1) 0)).map Prod.fst).Nodup := by
  unfold expandFrontier at h
  split at h
  · cases h
  · obtain ⟨d, hd, hnd⟩ := addSeeds_spec seeds [] []
    rw [hd] at h
    dsimp only at h
    simp only [List.nil_append] at h hnd
    split at h
    · cases h
    · rename_i st lo hloop
      cases h
      intro i hi
      refine expandLoop_slices csr prob maxNum (numHops - 1)
        { subVers := d.map (fun v => (v, 0)), curMap := d, neighPos := [],
          neighborList := [], edgeList := [], numEdges := 0, rands := rands }
        [0, (d.map (fun v => (v, 0))).length] 0 (d.map (fun v => (v, 0))).length
        rfl (by simp) ?_ ?_ hloop i hi
      · intro j hj
        simp only [List.length_cons, List.length_nil] at hj
        interval_cases j <;> simp
      · intro j hj
        simp only [List.length_cons, List.length_nil] at hj
        have hj0 : j = 0 := by omega
        subst hj0
        simp only [List.getD_cons_zero, List.getD_cons_succ]
        rw [seg_self]
        have : (List.map (fun v : ℕ => (v, 0)) d).map Prod.fst = d := by
          rw [List.map_map]
          exact List.map_id d
        rw [this]
        exact hnd List.nodup_nil

/-- C6: during frontier expansion, the vertices recorded for any single hop
layer (the slice of `sub_vers` between two consecutive `layer_offsets`
entries) are pairwise distinct (the per-sweep `sub_ver_map` dedup); and on
the 2-cycle 0→1→0 with seed 0 and three hops, vertex id 0 appears in both
layer 0 and layer 2 — a vertex may recur at a different hop depth. -/
theorem C6_layer_dedup_and_cross_layer_recurrence :
    (∀ (csr : Csr) (prob : Option (ℕ → ℚ)) (seeds : List ℕ) (numHops maxNum : ℕ)
        (rands : List ℕ) (ex : ExpandOut),
      expandFrontier csr prob seeds numHops maxNum rands = some ex →
      ∀ i, i + 1 < ex.lo.length →
        ((seg ex.subVers (ex.lo.getD i 0) (ex.lo.getD (i + 1) 0)).map Prod.fst).Nodup) ∧
    (expandFrontier { indptr := [0, 1, 2], indices := [1, 0], edgeIds := [0, 1] }
        none [0] 3 10 [] =
      some { subVers := [(0, 0), (1, 1), (0, 2)], lo := [0, 1, 2, 3],
             neighPos := [(0, 0, 1), (1, 1, 1)], neighborList := [1, 0],
             edgeList := [0, 1], numEdges := 2, rands := [] } ∧
      0 ∈ (seg ([(0, 0), (1, 1), (0, 2)] : List (ℕ × ℕ)) 0 1).map Prod.fst ∧
      0 ∈ (seg ([(0, 0), (1, 1), (0, 2)] : List (ℕ × ℕ)) 2 3).map Prod.fst) := by
  refine ⟨fun csr prob seeds numHops maxNum rands ex h => expandFrontier_slices h,
    by rfl, by decide, by decide⟩

theorem scanl_getD_nat : ∀ (l : List ℕ) (a b : ℕ), b ≤ l.length →
    (l.scanl (· + ·) a).getD b 0 = a + (l.take b).sum := by
  intro l
  induction l with
  | nil =>
      intro a b hb
      have hb0 : b = 0 := by simpa using hb
      subst hb0
      simp [List.scanl]
  | cons x t ih =>
      intro a b hb
      cases b with
      | zero => simp [List.scanl]
      | succ b2 =>
          simp only [List.scanl, List.getD_cons_succ, List.take_succ_cons, List.sum_cons]
          rw [ih (a + x) b2 (by simpa using hb)]
          omega

theorem seg_zero_take (l : List α) (n : ℕ) : seg l 0 n = l.take n := by
  simp [seg]

theorem seg_shift (x r : List α) (a b : ℕ) :
    seg (x ++ r) (x.length + a) (x.length + b) = seg r a b := by
  unfold seg
  rw [List.drop_append]
  congr 1
  omega

theorem seg_flatten_block {α : Type} : ∀ (bs : List (List α)) (b : ℕ), b < bs.length →
    seg bs.flatten (((bs.map List.length).take b).sum) (((bs.map List.length).take (b + 1)).sum)
      = bs.getD b [] := by
  intro bs
  induction bs with
  | nil => intro b hb; cases hb
  | cons x t ih =>
      intro b hb
      cases b with
      | zero =>
          simp only [List.map_cons, List.take_zero, List.sum_nil, List.take_succ_cons,
            List.sum_cons, List.getD_cons_zero, List.flatten_cons]
          rw [seg_zero_take, Nat.add_zero]
          exact List.take_left x t.flatten
      | succ b2 =>
          simp only [List.map_cons, List.take_succ_cons, List.sum_cons, List.getD_cons_succ,
            List.flatten_cons]
          rw [seg_shift]
          exact ih b2 (by simpa using hb)

theorem reverse_range_getD {nh b : ℕ} (hb : b < nh) :
    ((List.range nh).reverse).getD b 0 = nh - 1 - b := by
  have hlen : b < ((List.range nh).reverse).length := by simpa using hb
  rw [List.getD_eq_getElem?_getD, List.getElem?_eq_getElem hlen]
  simp only [Option.getD_some]
  rw [List.getElem_reverse]
  simp

theorem map_getD2 {α β : Type} (f : α → β) (l : List α) {b : ℕ} (hb : b < l.length)
    (d : β) (d2 : α) : (l.map f).getD b d = f (l.getD b d2) := by
  have hb2 : b < (l.map f).length := by simpa using hb
  rw [List.getD_eq_getElem?_getD, List.getElem?_eq_getElem hb2,
    List.getD_eq_getElem?_getD, List.getElem?_eq_getElem hb]
  simp

theorem getD_seg {l : List α} {a b j : ℕ} (d : α) (hj : j < b - a) :
    (seg l a b).getD j d = l.getD (a + j) d := by
  unfold seg
  rw [List.getD_eq_getElem?_getD, List.getElem?_take, if_pos hj, List.getElem?_drop,
    List.getD_eq_getElem?_getD]

theorem take_sum_le (L : List ℕ) (k : ℕ) : (L.take k).sum ≤ L.sum := by
  conv_rhs => rw [← List.take_append_drop k L]
  rw [List.sum_append]
  omega

theorem sortedLayer_map_fst_sorted (sv : List (ℕ × ℕ)) (lo : List ℕ) (l : ℕ) :
    ((sortedLayer sv lo l).map Prod.fst).Sorted (· ≤ ·) := by
  haveI h1 : IsTotal (ℕ × ℕ) (fun a b : ℕ × ℕ => a.1 ≤ b.1) :=
    ⟨fun a b => Nat.le_total a.1 b.1⟩
  haveI h2 : IsTrans (ℕ × ℕ) (fun a b : ℕ × ℕ => a.1 ≤ b.1) :=
    ⟨fun a b c hab hbc => Nat.le_trans hab hbc⟩
  have h := List.sorted_insertionSort (fun a b : ℕ × ℕ => a.1 ≤ b.1)
    (seg sv (lo.getD l 0) (lo.getD (l + 1) 0))
  unfold sortedLayer
  rw [List.Sorted, List.pairwise_map]
  exact h

theorem nodeBlocks_map_length (sv : List (ℕ × ℕ)) (lo : List ℕ) (nh : ℕ) :
    (nodeBlocks sv lo nh).map List.length =
      ((List.range nh).reverse).map (fun l => (sortedLayer sv lo l).length) := by
  unfold nodeBlocks
  rw [List.map_map]
  apply List.map_congr_left
  intro a _
  simp

theorem layerStartOut_eq (sv : List (ℕ × ℕ)) (lo : List ℕ) (nh l : ℕ) (hl : l < nh) :
    layerStartOut sv lo nh l =
      ((((List.range nh).reverse).map (fun l2 => (sortedLayer sv lo l2).length)).take
        (nh - 1 - l)).sum := by
  unfold layerStartOut
  rw [← List.map_take, List.take_reverse]
  have hidx : (List.range nh).length - (nh - 1 - l) = l + 1 := by
    simp only [List.length_range]
    omega
  rw [hidx, List.map_reverse, List.sum_reverse]

/-- C6 witness: the dedup half applied to the concrete 2-cycle run. -/
theorem C6_layer_dedup_witness :
    ((seg (({ subVers := [(0, 0), (1, 1), (0, 2)], lo := [0, 1, 2, 3],
              neighPos := [(0, 0, 1), (1, 1, 1)], neighborList := [1, 0],
              edgeList := [0, 1], numEdges := 2, rands := [] } : ExpandOut).subVers)
        ((([0, 1, 2, 3] : List ℕ)).getD 0 0) ((([0, 1, 2, 3] : List ℕ)).getD 1 0)).map
      Prod.fst).Nodup :=
  C6_layer_dedup_and_cross_layer_recurrence.1
    { indptr := [0, 1, 2], indices := [1, 0], edgeIds := [0, 1] } none [0] 3 10 []
    { subVers := [(0, 0), (1, 1), (0, 2)], lo := [0, 1, 2, 3],
      neighPos := [(0, 0, 1), (1, 1, 1)], neighborList := [1, 0],
      edgeList := [0, 1], numEdges := 2, rands := [] } (by rfl) 0 (by decide)

theorem scanl_head (l : List ℕ) : (List.scanl (· + ·) 0 l).head? = some 0 := by
  cases l <;> rfl

theorem scanl_getLast (l : List ℕ) : (List.scanl (· + ·) 0 l).getLast? = some l.sum := by
  rw [List.getLast?_eq_getElem?]
  have hlen : (List.scanl (· + ·) 0 l).length = l.length + 1 := List.length_scanl 0 l
  rw [hlen]
  simp only [Nat.add_sub_cancel]
  have hgd := scanl_getD_nat l 0 l.length (le_refl _)
  rw [List.take_length, List.getD_eq_getElem?_getD] at hgd
  cases hx : (List.scanl (· + ·) 0 l)[l.length]? with
  | none =>
      exfalso
      rw [List.getElem?_eq_none_iff] at hx
      omega
  | some v =>
      rw [hx] at hgd
      simp only [Option.getD_some, Nat.zero_add] at hgd
      rw [hgd]

theorem lookup_mem : ∀ {l : List (ℕ × ℕ)} {a b : ℕ}, l.lookup a = some b → (a, b) ∈ l := by
  intro l
  induction l with
  | nil => intro a b h; simp [List.lookup] at h
  | cons x t ih =>
      intro a b h
      rw [List.lookup_cons] at h
      split at h
      · rename_i hx
        cases h
        simp only [beq_iff_eq] at hx
        subst hx
        exact List.mem_cons_self _ _
      · exact List.mem_cons_of_mem _ (ih h)

theorem seg_length {l : List α} {a b : ℕ} (hb : b ≤ l.length) :
    (seg l a b).length = b - a := by
  unfold seg
  rw [List.length_take, List.length_drop]
  omega

theorem rowsOfLayer_row_shape {nl el : List ℕ} {sv : List (ℕ × ℕ)} {lo : List ℕ}
    {np : List (ℕ × ℕ × ℕ)} {nh l : ℕ} {rows : List (List ℕ × List ℕ)}
    (h : rowsOfLayer nl el sv lo np nh l = some rows) :
    ∀ rc ∈ rows, rc.1.length = rc.2.length ∧
      ∀ c ∈ rc.1, ∃ vid, (vid, c) ∈ layerVerMap sv lo nh (l + 1) := by
  unfold rowsOfLayer at h
  dsimp only at h
  split at h
  · intro rc hrc
    obtain ⟨x, hx, hfx⟩ := optMapM_mem h hrc
    split at hfx
    · rename_i hcond
      obtain ⟨cols, hcols, hfx⟩ := opt_bind_ok hfx
      cases hfx
      refine ⟨?_, ?_⟩
      · have h1 := optMapM_length hcols
        dsimp only
        rw [h1, seg_length hcond.2.2.2.1, seg_length hcond.2.2.2.2]
      · intro c hc
        obtain ⟨neigh, hneigh, hlk⟩ := optMapM_mem hcols hc
        exact ⟨neigh, lookup_mem hlk⟩
    · cases hfx
  · cases h

/-- C4: for every NodeFlow produced by a sampling call, `node_mapping` is laid
out in reversed hop order — block `b` (delimited by consecutive
`layer_offsets` entries) is internal hop layer `num_hops - 1 - b`, so the
deepest hop comes first and the seed layer last; within each block the
original vertex ids appear sorted increasingly; and the local ids assigned by
the monotonically increasing `ver_id` counter (`layer_ver_maps`) are exactly
the contiguous range `[layer_offsets[b], layer_offsets[b+1])` in that same
traversal order, each local id naming the `node_mapping` position holding its
original id. -/
theorem C4_node_mapping_reversed_sorted_contiguous :
    ∀ (csr : Csr) (prob : Option (ℕ → ℚ)) (seeds : List ℕ) (numHops maxNum : ℕ)
      (rands : List ℕ) (nf : NodeFlow),
      sampleSubgraph csr prob seeds numHops maxNum rands = some nf →
      ∃ ex : ExpandOut,
        expandFrontier csr prob seeds numHops maxNum rands = some ex ∧
        nf.layerOffsets.length = numHops + 1 ∧
        ∀ b, b < numHops →
          seg nf.nodeMapping (nf.layerOffsets.getD b 0) (nf.layerOffsets.getD (b + 1) 0) =
            (sortedLayer ex.subVers ex.lo (numHops - 1 - b)).map Prod.fst ∧
          (seg nf.nodeMapping (nf.layerOffsets.getD b 0)
              (nf.layerOffsets.getD (b + 1) 0)).Sorted (· ≤ ·) ∧
          (layerVerMap ex.subVers ex.lo numHops (numHops - 1 - b)).map Prod.snd =
            List.range' (nf.layerOffsets.getD b 0)
              (sortedLayer ex.subVers ex.lo (numHops - 1 - b)).length ∧
          ∀ pr ∈ layerVerMap ex.subVers ex.lo numHops (numHops - 1 - b),
            nf.nodeMapping.getD pr.2 0 = pr.1 := by
  intro csr prob seeds nh mx rands nf h
  unfold sampleSubgraph at h
  obtain ⟨ex, hex, h⟩ := opt_bind_ok h
  obtain ⟨h1, hlolen, hnm, hnmlen, hlay, hlast, _, _, _, _⟩ := constructNodeFlow_fields h
  refine ⟨ex, hex, ?_, ?_⟩
  · rw [hlay, List.length_scanl]
    simp
  · intro b hb
    set sv := ex.subVers with hsv
    set lo := ex.lo with hlo2
    set L := ((List.range nh).reverse).map (fun l => (sortedLayer sv lo l).length) with hL
    have hLlen : L.length = nh := by
      rw [hL]
      simp
    have hoffb : nf.layerOffsets.getD b 0 = (L.take b).sum := by
      rw [hlay, scanl_getD_nat L 0 b (by omega)]
      omega
    have hoffb1 : nf.layerOffsets.getD (b + 1) 0 = (L.take (b + 1)).sum := by
      rw [hlay, scanl_getD_nat L 0 (b + 1) (by omega)]
      omega
    have hLb : L.getD b 0 = (sortedLayer sv lo (nh - 1 - b)).length := by
      rw [hL, map_getD2 _ _ (by simpa using hb) _ 0, reverse_range_getD hb]
    have hblock :
        seg nf.nodeMapping (nf.layerOffsets.getD b 0) (nf.layerOffsets.getD (b + 1) 0) =
          (sortedLayer sv lo (nh - 1 - b)).map Prod.fst := by
      rw [hoffb, hoffb1, hnm]
      have hbs : b < (nodeBlocks sv lo nh).length := by
        unfold nodeBlocks
        simpa using hb
      have hfb := seg_flatten_block (nodeBlocks sv lo nh) b hbs
      rw [nodeBlocks_map_length, ← hL] at hfb
      unfold nodeMappingOf
      rw [hfb]
      unfold nodeBlocks
      rw [map_getD2 _ _ (by simpa using hb) _ 0, reverse_range_getD hb]
    have hstart : layerStartOut sv lo nh (nh - 1 - b) = nf.layerOffsets.getD b 0 := by
      rw [layerStartOut_eq sv lo nh (nh - 1 - b) (by omega), ← hL, hoffb]
      have hbb : nh - 1 - (nh - 1 - b) = b := by omega
      rw [hbb]
    refine ⟨hblock, ?_, ?_, ?_⟩
    · rw [hblock]
      exact sortedLayer_map_fst_sorted sv lo (nh - 1 - b)
    · unfold layerVerMap
      rw [List.map_map]
      have : ((Prod.snd ∘ Prod.swap : ℕ × ℕ → ℕ)) = (Prod.fst : ℕ × ℕ → ℕ) := by
        funext p
        rfl
      rw [this, List.enumFrom_map_fst, List.length_map, hstart]
    · intro pr hpr
      unfold layerVerMap at hpr
      obtain ⟨q, hq, hpr⟩ := List.mem_map.mp hpr
      obtain ⟨i, hi, hq2⟩ := List.mem_iff_getElem.mp hq
      rw [List.getElem_enumFrom] at hq2
      have hix : i < ((sortedLayer sv lo (nh - 1 - b)).map Prod.fst).length := by
        simpa using hi
      subst hpr
      rw [← hq2]
      simp only [Prod.swap_prod_mk, Prod.fst, Prod.snd]
      have hjlt : i < nf.layerOffsets.getD (b + 1) 0 - nf.layerOffsets.getD b 0 := by
        have hbL : b < L.length := by omega
        have hsum1 : (List.take (b + 1) L).sum = (List.take b L).sum + L.getD b 0 := by
          rw [List.sum_take_succ L b hbL]
          congr 1
          rw [List.getD_eq_getElem?_getD, List.getElem?_eq_getElem hbL]
          rfl
        rw [hoffb, hoffb1, hsum1, hLb]
        simp only [List.length_map] at hix
        omega
      have hgd := getD_seg (l := nf.nodeMapping) (a := nf.layerOffsets.getD b 0)
        (b := nf.layerOffsets.getD (b + 1) 0) (j := i) 0 hjlt
      rw [hblock] at hgd
      have hxs : ((sortedLayer sv lo (nh - 1 - b)).map Prod.fst).getD i 0 =
          ((sortedLayer sv lo (nh - 1 - b)).map Prod.fst)[i] := by
        rw [List.getD_eq_getElem?_getD, List.getElem?_eq_getElem hix]
        rfl
      rw [hxs] at hgd
      exact (congrArg (fun s => nf.nodeMapping.getD (s + i) 0) hstart).trans hgd.symm

/-- C4 witness: the layout theorem applied at the concrete path-graph call. -/
theorem C4_node_mapping_witness :
    ∃ ex : ExpandOut,
      expandFrontier { indptr := [0, 1, 1], indices := [1], edgeIds := [0] } none [0] 2 10 []
          = some ex ∧
      ({ nodeMapping := [1, 0], edgeMapping := [0], layerOffsets := [0, 1, 2], flowOffsets := [0, 1], csrIndptr := [0, 0, 1], csrCols := [0] } :
          NodeFlow).layerOffsets.length = 2 + 1 ∧
      ∀ b, b < 2 →
        seg ({ nodeMapping := [1, 0], edgeMapping := [0], layerOffsets := [0, 1, 2], flowOffsets := [0, 1], csrIndptr := [0, 0, 1], csrCols := [0] } :
              NodeFlow).nodeMapping
            (({ nodeMapping := [1, 0], edgeMapping := [0], layerOffsets := [0, 1, 2], flowOffsets := [0, 1], csrIndptr := [0, 0, 1], csrCols := [0] } :
                  NodeFlow).layerOffsets.getD b 0)
            (({ nodeMapping := [1, 0], edgeMapping := [0], layerOffsets := [0, 1, 2], flowOffsets := [0, 1], csrIndptr := [0, 0, 1], csrCols := [0] } :
                  NodeFlow).layerOffsets.getD (b + 1) 0) =
          (sortedLayer ex.subVers ex.lo (2 - 1 - b)).map Prod.fst ∧
        (seg ({ nodeMapping := [1, 0], edgeMapping := [0], layerOffsets := [0, 1, 2], flowOffsets := [0, 1], csrIndptr := [0, 0, 1], csrCols := [0] } :
              NodeFlow).nodeMapping
            (({ nodeMapping := [1, 0], edgeMapping := [0], layerOffsets := [0, 1, 2], flowOffsets := [0, 1], csrIndptr := [0, 0, 1], csrCols := [0] } :
                  NodeFlow).layerOffsets.getD b 0)
            (({ nodeMapping := [1, 0], edgeMapping := [0], layerOffsets := [0, 1, 2], flowOffsets := [0, 1], csrIndptr := [0, 0, 1], csrCols := [0] } :
                  NodeFlow).layerOffsets.getD (b + 1) 0)).Sorted (· ≤ ·) ∧
        (layerVerMap ex.subVers ex.lo 2 (2 - 1 - b)).map Prod.snd =
          List.range'
            (({ nodeMapping := [1, 0], edgeMapping := [0], layerOffsets := [0, 1, 2], flowOffsets := [0, 1], csrIndptr := [0, 0, 1], csrCols := [0] } :
                  NodeFlow).layerOffsets.getD b 0)
            (sortedLayer ex.subVers ex.lo (2 - 1 - b)).length ∧
        ∀ pr ∈ layerVerMap ex.subVers ex.lo 2 (2 - 1 - b),
          ({ nodeMapping := [1, 0], edgeMapping := [0], layerOffsets := [0, 1, 2], flowOffsets := [0, 1], csrIndptr := [0, 0, 1], csrCols := [0] } :
              NodeFlow).nodeMapping.getD pr.2 0 = pr.1 :=
  C4_node_mapping_reversed_sorted_contiguous
    { indptr := [0, 1, 1], indices := [1], edgeIds := [0] } none [0] 2 10 []
    { nodeMapping := [1, 0], edgeMapping := [0], layerOffsets := [0, 1, 2], flowOffsets := [0, 1], csrIndptr := [0, 0, 1], csrCols := [0] } (by rfl)

/-- C3: for every NodeFlow produced by a sampling call, `layer_offsets` starts
at 0 and ends at the length of `node_mapping`; `flow_offsets` starts at 0 and
ends at the length of `edge_mapping`; and every local neighbor id stored in
the compact adjacency (`csrCols`, built per block) resolves to a vertex that
was assigned a local id in the adjacent one-hop-shallower layer's
`layer_ver_maps` (the embedding maps the source's fatal
`CHECK(... != layer_ver_maps[layer_id+1]->end())` to `none`, so an unresolved
reference can never reach the output). -/
theorem C3_offset_invariants_and_col_resolution :
    ∀ (csr : Csr) (prob : Option (ℕ → ℚ)) (seeds : List ℕ) (numHops maxNum : ℕ)
      (rands : List ℕ) (nf : NodeFlow),
      sampleSubgraph csr prob seeds numHops maxNum rands = some nf →
      nf.layerOffsets.head? = some 0 ∧
      nf.layerOffsets.getLast? = some nf.nodeMapping.length ∧
      nf.flowOffsets.head? = some 0 ∧
      nf.flowOffsets.getLast? = some nf.edgeMapping.length ∧
      ∃ ex : ExpandOut, expandFrontier csr prob seeds numHops maxNum rands = some ex ∧
        ∃ blocks : List (List (List ℕ × List ℕ)),
          optMapM (fun l => rowsOfLayer ex.neighborList ex.edgeList ex.subVers ex.lo
              ex.neighPos numHops l) ((List.range (numHops - 1)).reverse) = some blocks ∧
          nf.csrCols = ((blocks.flatten).map (fun rc => rc.1)).flatten ∧
          ∀ bidx, bidx < blocks.length → ∀ rc ∈ blocks.getD bidx [], ∀ c ∈ rc.1,
            ∃ vid, (vid, c) ∈ layerVerMap ex.subVers ex.lo numHops (numHops - 1 - bidx) := by
  intro csr prob seeds nh mx rands nf h
  unfold sampleSubgraph at h
  obtain ⟨ex, hex, h⟩ := opt_bind_ok h
  obtain ⟨h1, hlolen, hnm, hnmlen, hlay, hlast, hilast, hflast, hflow,
    blocks, hblocks, hindptr, hcols, hem, hrclen⟩ := constructNodeFlow_fields h
  have hrow : ∀ rc ∈ blocks.flatten, rc.1.length = rc.2.length ∧
      ∃ l ∈ (List.range (nh - 1)).reverse,
        ∀ c ∈ rc.1, ∃ vid, (vid, c) ∈ layerVerMap ex.subVers ex.lo nh (l + 1) := by
    intro rc hrc
    obtain ⟨blk, hblk, hrcb⟩ := List.mem_flatten.mp hrc
    obtain ⟨l, hl, hfl⟩ := optMapM_mem hblocks hblk
    exact ⟨(rowsOfLayer_row_shape hfl rc hrcb).1, l, hl,
      (rowsOfLayer_row_shape hfl rc hrcb).2⟩
  refine ⟨?_, ?_, ?_, ?_, ex, hex, blocks, hblocks, hcols, ?_⟩
  · rw [hlay]
    exact scanl_head _
  · rw [hlast, hnmlen]
  · rw [hflow]
    exact scanl_head _
  · rw [hflast]
    have hsum : (List.replicate (sortedLayer ex.subVers ex.lo (nh - 1)).length 0 ++
        blocks.flatten.map (fun rc : List ℕ × List ℕ => rc.1.length)).sum = ex.numEdges := by
      rw [hindptr, scanl_getLast] at hilast
      exact Option.some.inj hilast
    rw [List.sum_append, List.sum_replicate, smul_zero, Nat.zero_add] at hsum
    have hlen : nf.edgeMapping.length =
        (blocks.flatten.map (fun rc : List ℕ × List ℕ => rc.2.length)).sum := by
      rw [hem, List.length_flatten, List.map_map]
      rfl
    have hcongr : blocks.flatten.map (fun rc : List ℕ × List ℕ => rc.2.length) =
        blocks.flatten.map (fun rc : List ℕ × List ℕ => rc.1.length) := by
      apply List.map_congr_left
      intro rc hrc
      exact ((hrow rc hrc).1).symm
    rw [hlen, hcongr, hsum]
  · intro bidx hbidx rc hrc c hc
    have hbl : blocks.length = nh - 1 := by
      rw [optMapM_length hblocks]
      simp
    have hbidx2 : bidx < nh - 1 := by omega
    have hgd := optMapM_getD hblocks 0 [] bidx (by simpa using hbidx2)
    rw [reverse_range_getD hbidx2] at hgd
    obtain ⟨vid, hvid⟩ := (rowsOfLayer_row_shape hgd rc hrc).2 c hc
    have harith : nh - 1 - 1 - bidx + 1 = nh - 1 - bidx := by omega
    rw [harith] at hvid
    exact ⟨vid, hvid⟩

/-- C3 witness: the offset invariants and column resolution applied at the
concrete path-graph call. -/
theorem C3_offset_invariants_witness :
    ({ nodeMapping := [1, 0], edgeMapping := [0], layerOffsets := [0, 1, 2], flowOffsets := [0, 1], csrIndptr := [0, 0, 1], csrCols := [0] } : NodeFlow).layerOffsets.head? = some 0 ∧
    ({ nodeMapping := [1, 0], edgeMapping := [0], layerOffsets := [0, 1, 2], flowOffsets := [0, 1], csrIndptr := [0, 0, 1], csrCols := [0] } : NodeFlow).layerOffsets.getLast? =
      some ({ nodeMapping := [1, 0], edgeMapping := [0], layerOffsets := [0, 1, 2], flowOffsets := [0, 1], csrIndptr := [0, 0, 1], csrCols := [0] } : NodeFlow).nodeMapping.length ∧
    ({ nodeMapping := [1, 0], edgeMapping := [0], layerOffsets := [0, 1, 2], flowOffsets := [0, 1], csrIndptr := [0, 0, 1], csrCols := [0] } : NodeFlow).flowOffsets.head? = some 0 ∧
    ({ nodeMapping := [1, 0], edgeMapping := [0], layerOffsets := [0, 1, 2], flowOffsets := [0, 1], csrIndptr := [0, 0, 1], csrCols := [0] } : NodeFlow).flowOffsets.getLast? =
      some ({ nodeMapping := [1, 0], edgeMapping := [0], layerOffsets := [0, 1, 2], flowOffsets := [0, 1], csrIndptr := [0, 0, 1], csrCols := [0] } : NodeFlow).edgeMapping.length ∧
    ∃ ex : ExpandOut,
      expandFrontier { indptr := [0, 1, 1], indices := [1], edgeIds := [0] } none [0] 2 10 []
        = some ex ∧
      ∃ blocks : List (List (List ℕ × List ℕ)),
        optMapM (fun l => rowsOfLayer ex.neighborList ex.edgeList ex.subVers ex.lo
            ex.neighPos 2 l) ((List.range (2 - 1)).reverse) = some blocks ∧
        ({ nodeMapping := [1, 0], edgeMapping := [0], layerOffsets := [0, 1, 2], flowOffsets := [0, 1], csrIndptr := [0, 0, 1], csrCols := [0] } : NodeFlow).csrCols =
          ((blocks.flatten).map (fun rc => rc.1)).flatten ∧
        ∀ bidx, bidx < blocks.length → ∀ rc ∈ blocks.getD bidx [], ∀ c ∈ rc.1,
          ∃ vid, (vid, c) ∈ layerVerMap ex.subVers ex.lo 2 (2 - 1 - bidx) :=
  C3_offset_invariants_and_col_resolution
    { indptr := [0, 1, 1], indices := [1], edgeIds := [0] } none [0] 2 10 []
    { nodeMapping := [1, 0], edgeMapping := [0], layerOffsets := [0, 1, 2], flowOffsets := [0, 1], csrIndptr := [0, 0, 1], csrCols := [0] } (by rfl)

end Dgl
